import Mathlib

/-! DBC message parser (`Training.cpp`): shallow embedding and verified properties.

`std::string` is embedded as `List Char`, `int` as `Int` (range checked where the
library checks it), `size_t` positions as `Nat` with `std::string::npos` represented by
`none`, `uint64_t` as `Nat` reduced modulo `2 ^ 64`.  Exceptions thrown by the standard
library and undefined behaviour are results of type `Except Err _`.  Floating point is
a parameter: every function that touches a `double` takes the arithmetic as a
`FloatOps`, so the general statements hold for IEEE arithmetic as for any other.  Two
instances are given: `ieeeOps`, the binary arithmetic of the program (`std::stof` rounds
to `float`, arithmetic rounds to `double`), and `exactOps`, exact arithmetic for examples
whose values are representable.
-/

namespace DBC

/-- A `std::string`, as its sequence of characters. -/
abbrev Str := List Char

/-- The ways a call can fail: the two exceptions of `std::stoi`, `std::stof` and
`std::string::substr`, and undefined behaviour (invalid iterator range, shift count
outside `0..63`). -/
inductive Err where
  | invalid_argument
  | out_of_range
  | undefined
  deriving DecidableEq

/-- Results can be compared, so that closed examples evaluate. -/
instance instDecidableEqResult {ε α : Type} [DecidableEq ε] [DecidableEq α] :
    DecidableEq (Except ε α)
  | .ok a, .ok b =>
    if h : a = b then isTrue (congrArg Except.ok h)
    else isFalse (fun e => h (Except.ok.inj e))
  | .error a, .error b =>
    if h : a = b then isTrue (congrArg Except.error h)
    else isFalse (fun e => h (Except.error.inj e))
  | .ok _, .error _ => isFalse (fun e => Except.noConfusion e)
  | .error _, .ok _ => isFalse (fun e => Except.noConfusion e)

/-! ## `std::string` primitives -/

/-- Does `s` begin with `needle`? -/
def startsWith : Str → Str → Bool
  | _, [] => true
  | [], _ :: _ => false
  | c :: s, d :: n => c == d && startsWith s n

/-- Scan for `needle` from the head of `s`; `i` is the index of the head. -/
def findAux (needle : Str) : Str → Nat → Option Nat
  | [], i => if startsWith [] needle then some i else none
  | c :: s, i => if startsWith (c :: s) needle then some i else findAux needle s (i + 1)

/-- `s.find(needle, pos)`: index of the first occurrence at or after `pos`,
`none` for `npos`. -/
def find (s needle : Str) (pos : Nat) : Option Nat :=
  if pos ≤ s.length then findAux needle (s.drop pos) pos else none

/-- Scan for the first character satisfying `p`; `i` is the index of the head. -/
def findIfAux (p : Char → Bool) : Str → Nat → Option Nat
  | [], _ => none
  | c :: s, i => if p c then some i else findIfAux p s (i + 1)

/-- `s.find_first_of(set, pos)`. -/
def find_first_of (s set : Str) (pos : Nat) : Option Nat :=
  findIfAux (fun c => set.contains c) (s.drop pos) pos

/-- `s.find_first_not_of(set)`. -/
def find_first_not_of (s set : Str) : Option Nat :=
  findIfAux (fun c => !set.contains c) s 0

/-- `s.find_last_not_of(set)`. -/
def find_last_not_of (s set : Str) : Option Nat :=
  match findIfAux (fun c => !set.contains c) s.reverse 0 with
  | none => none
  | some k => some (s.length - 1 - k)

/-- `s.substr(pos, count)`; `count = none` stands for a count that is `npos` or has
wrapped around below zero, in both cases not less than the number of characters left.
Throws `out_of_range` when `pos > s.size()`. -/
def substr (s : Str) (pos : Nat) (count : Option Nat) : Except Err Str :=
  if pos ≤ s.length then
    match count with
    | none => .ok (s.drop pos)
    | some n => .ok ((s.drop pos).take n)
  else .error .out_of_range

/-- `std::string(s.begin() + a, s.begin() + b)` where either offset may be `npos`
(`none`): the range must be valid (`a ≤ b ≤ s.size()`), anything else is undefined
behaviour. -/
def range (s : Str) (a b : Option Nat) : Except Err Str :=
  match a, b with
  | some a, some b =>
    if a ≤ b ∧ b ≤ s.length then .ok ((s.drop a).take (b - a)) else .error .undefined
  | _, _ => .error .undefined

/-- `pos + 1` in `size_t`, where `npos + 1` wraps to `0`. -/
def succPos : Option Nat → Nat
  | none => 0
  | some i => i + 1

/-! ## `std::stoi` and `std::stof` -/

/-- `isspace` in the C locale. -/
def isSpaceC (c : Char) : Bool :=
  c == ' ' || c == '\t' || c == '\n' || c == '\r' || c.toNat == 11 || c.toNat == 12

/-- Decimal digit test. -/
def isDigitC (c : Char) : Bool := decide (48 ≤ c.toNat) && decide (c.toNat ≤ 57)

/-- Hexadecimal digit test. -/
def isHexC (c : Char) : Bool :=
  isDigitC c || (decide (97 ≤ c.toNat) && decide (c.toNat ≤ 102))
    || (decide (65 ≤ c.toNat) && decide (c.toNat ≤ 70))

/-- Value of a hexadecimal (hence also decimal) digit. -/
def hexVal (c : Char) : Nat :=
  if isDigitC c then c.toNat - 48
  else if 97 ≤ c.toNat then c.toNat - 87 else c.toNat - 55

/-- Value of a digit string in base `b`, most significant digit first. -/
def digitsVal (b : Nat) (ds : Str) : Nat :=
  ds.foldl (fun acc c => acc * b + hexVal c) 0

/-- Strip an optional sign: `(negative, rest)`. -/
def takeSign : Str → Bool × Str
  | '-' :: r => (true, r)
  | '+' :: r => (false, r)
  | s => (false, s)

/-- `std::stoi(s)` (base 10, no position argument): skip white space, take an optional
sign and the longest run of digits; `invalid_argument` when there is no digit,
`out_of_range` when the value does not fit an `int`.  What follows the digits is
ignored. -/
def stoi (s : Str) : Except Err Int :=
  let t := takeSign (s.dropWhile isSpaceC)
  let ds := t.2.takeWhile isDigitC
  if ds.isEmpty then .error .invalid_argument
  else
    let v : Int := if t.1 then -(digitsVal 10 ds : Int) else (digitsVal 10 ds : Int)
    if -2147483648 ≤ v ∧ v ≤ 2147483647 then .ok v else .error .out_of_range

/-- What the scanner of `strtof` recognises at the head of a string, before conversion:
a decimal numeral `± mant * 10 ^ exp10`, a hexadecimal one `± mant * 2 ^ exp2`, an
infinity or a NaN. -/
inductive FloatLit where
  | dec (neg : Bool) (mant : Nat) (exp10 : Int)
  | hex (neg : Bool) (mant : Nat) (exp2 : Int)
  | inf (neg : Bool)
  | nan (neg : Bool)
  deriving DecidableEq

/-- Optional exponent part: a marker character (recognised by `mark`), an optional sign
and at least one decimal digit.  The result is the exponent, `0` when the input does
not begin with a complete exponent part. -/
def scanExp (mark : Char → Bool) : Str → Int
  | [] => 0
  | c :: r =>
    if mark c then
      let t := takeSign r
      let ds := t.2.takeWhile isDigitC
      if ds.isEmpty then 0
      else if t.1 then -(digitsVal 10 ds : Int) else (digitsVal 10 ds : Int)
    else 0

/-- Mantissa in base `b` with digit test `isD`: digits, an optional `'.'`, digits, with
at least one digit overall.  Returns the digits before the point, those after it, and
the rest of the input. -/
def scanMant (isD : Char → Bool) (s : Str) : Option (Str × Str × Str) :=
  let ip := s.takeWhile isD
  let r := s.dropWhile isD
  match r with
  | '.' :: r2 =>
    let fp := r2.takeWhile isD
    if ip.isEmpty && fp.isEmpty then none else some (ip, fp, r2.dropWhile isD)
  | _ => if ip.isEmpty then none else some (ip, [], r)

/-- Case-insensitive test that `s` begins with a word, given as the list of its letters
in lower and upper case. -/
def startsWithCI : Str → List (Char × Char) → Bool
  | _, [] => true
  | [], _ :: _ => false
  | c :: s, p :: w => (c == p.1 || c == p.2) && startsWithCI s w

/-- The hexadecimal form of the subject sequence: `0x` or `0X`, then a hexadecimal
mantissa and an optional binary exponent.  `none` when the input has no such form (a
`0x` without a hexadecimal digit after it is read as the decimal `0`). -/
def scanHex (neg : Bool) : Str → Option FloatLit
  | '0' :: x :: r =>
    if x == 'x' || x == 'X' then
      match scanMant isHexC r with
      | some (ip, fp, rest) =>
        some (.hex neg (digitsVal 16 (ip ++ fp))
          (scanExp (fun c => c == 'p' || c == 'P') rest - 4 * (fp.length : Int)))
      | none => none
    else none
  | _ => none

/-- The subject sequence of `strtof` after white space and sign have been removed. -/
def scanFloat (neg : Bool) (u : Str) : Option FloatLit :=
  if startsWithCI u [('i', 'I'), ('n', 'N'), ('f', 'F')] then some (.inf neg)
  else if startsWithCI u [('n', 'N'), ('a', 'A'), ('n', 'N')] then some (.nan neg)
  else
    match scanHex neg u with
    | some l => some l
    | none =>
      match scanMant isDigitC u with
      | some (ip, fp, rest) =>
        some (.dec neg (digitsVal 10 (ip ++ fp))
          (scanExp (fun c => c == 'e' || c == 'E') rest - (fp.length : Int)))
      | none => none

/-- The floating-point arithmetic the program uses, as an interface.  `ofLit` is the
conversion done by `std::stof` (rounding to `float`, widening to `double`, and
`out_of_range` where the library reports a range error); `ofUInt64` is the conversion
of a `uint64_t` to `double`; `zero` is the literal `0.0`. -/
structure FloatOps (F : Type) where
  ofLit : FloatLit → Except Err F
  ofUInt64 : Nat → F
  mul : F → F → F
  add : F → F → F
  zero : F

/-- `std::stof(s)` (no position argument): white space, optional sign, subject
sequence; `invalid_argument` when nothing can be converted. -/
def stof {F : Type} (ops : FloatOps F) (s : Str) : Except Err F :=
  let t := takeSign (s.dropWhile isSpaceC)
  match scanFloat t.1 t.2 with
  | none => .error .invalid_argument
  | some l => ops.ofLit l

/-! ## The data model -/

/-- `enum Encoding`. -/
inductive Encoding where
  | BIG_ENDIAN
  | LITTLE_ENDIAN
  deriving DecidableEq

/-- The numeric value of an enumerator (`BIG_ENDIAN = 0`, `LITTLE_ENDIAN = 1`). -/
def Encoding.toNat : Encoding → Nat
  | .BIG_ENDIAN => 0
  | .LITTLE_ENDIAN => 1

/-- `struct CANSignal`. -/
structure CANSignal (F : Type) where
  encoding_type : Encoding
  name : Str
  unit : Str
  scale_factor : F
  offset : F
  start_bit : Int
  bit_length : Int
  is_signed : Bool
  deriving DecidableEq

/-- The default member initialisers of `CANSignal`. -/
def CANSignal.init {F : Type} (ops : FloatOps F) : CANSignal F :=
  { encoding_type := .BIG_ENDIAN, name := [], unit := [], scale_factor := ops.zero,
    offset := ops.zero, start_bit := 0, bit_length := 0, is_signed := false }

/-- `struct CANMessage`. -/
structure CANMessage (F : Type) where
  signals : List (CANSignal F)
  name : Str
  id : Int
  deriving DecidableEq

/-! ## The parsing functions -/

/-- `ParseMessage`: `(name, id)` of a header line.  (The two arguments of
`std::make_pair` are evaluated in an unspecified order; this only decides which of two
failures is reported.) -/
def ParseMessage (input_data : Str) : Except Err (Str × Int) :=
  match range input_data ((find input_data [' '] 5).map (· + 1))
      (find_first_of input_data [':'] 0) with
  | .error e => .error e
  | .ok name =>
    match substr input_data 4 (find input_data [' '] 5) with
    | .error e => .error e
    | .ok digits =>
      match stoi digits with
      | .error e => .error e
      | .ok id => .ok (name, id)

/-- The loop of `SplitIntoWords`, with the words collected so far and the word being
built; a word that has been moved into the vector leaves `word` empty. -/
def splitLoop : Str → List Str → Str → List Str
  | [], words, word => if word.isEmpty then words else words ++ [word]
  | c :: text, words, word =>
    if c == ' ' then
      if word.isEmpty then splitLoop text words word else splitLoop text (words ++ [word]) []
    else splitLoop text words (word ++ [c])

/-- `SplitIntoWords`. -/
def SplitIntoWords (text : Str) : List Str := splitLoop text [] []

/-- `ParseScaleOffset`.  The count `data.size() - 2` wraps around when the token has
fewer than two characters. -/
def ParseScaleOffset {F : Type} (ops : FloatOps F) (data : Str) : Except Err (F × F) :=
  match substr data 1 (find data [','] 0) with
  | .error e => .error e
  | .ok s1 =>
    match stof ops s1 with
    | .error e => .error e
    | .ok scale =>
      match substr data (succPos (find data [','] 0))
          (if 2 ≤ data.length then some (data.length - 2) else none) with
      | .error e => .error e
      | .ok s2 =>
        match stof ops s2 with
        | .error e => .error e
        | .ok offset => .ok (scale, offset)

/-- `ParseLenghtStartBit`; the tuple is `(length, start_bit, is_signed, encoding_type)`
as in the `std::tie` of the source. -/
def ParseLenghtStartBit (data : Str) : Except Err (Int × Int × Bool × Encoding) :=
  match substr data 0 (find data ['|'] 0) with
  | .error e => .error e
  | .ok s1 =>
    match stoi s1 with
    | .error e => .error e
    | .ok start_bit =>
      match substr data (succPos (find data ['|'] 0)) (find data ['@'] 0) with
      | .error e => .error e
      | .ok s2 =>
        match stoi s2 with
        | .error e => .error e
        | .ok length =>
          let is_signed := (find data ['-'] 0).isSome
          let encoding_type :=
            if find data ['@', '0'] 0 = none then Encoding.BIG_ENDIAN
            else Encoding.LITTLE_ENDIAN
          .ok (length, start_bit, is_signed, encoding_type)

/-- `ParseUnit`: `std::string(data.begin() + 1, data.end() - 1)`. -/
def ParseUnit (data : Str) : Except Err Str :=
  if 1 ≤ data.length then range data (some 1) (some (data.length - 1))
  else .error .undefined

/-- `ParseName`. -/
def ParseName (data : Str) : Except Err Str :=
  range data (some 5) (find_first_of data [' '] 5)

/-- `TrimString`. -/
def TrimString (s : Str) : Str :=
  match find_first_not_of s [' ', '\t'] with
  | none => []
  | some start_pos =>
    match find_last_not_of s [' ', '\t'] with
    | none => []
    | some end_pos => (s.drop start_pos).take (end_pos - start_pos + 1)

/-- The body of the `for` loop of `ExtractRulesFromSingleSignal`: one word applied to
the signal under construction. -/
def applyWord {F : Type} (ops : FloatOps F) (result : CANSignal F) (word : Str) :
    Except Err (CANSignal F) :=
  if (find word ['@'] 0).isSome then
    match ParseLenghtStartBit word with
    | .error e => .error e
    | .ok parsed_data =>
      .ok { result with
            bit_length := parsed_data.1
            start_bit := parsed_data.2.1
            is_signed := parsed_data.2.2.1
            encoding_type := parsed_data.2.2.2 }
  else if (find word ['('] 0).isSome then
    match ParseScaleOffset ops word with
    | .error e => .error e
    | .ok parsed_data =>
      .ok { result with scale_factor := parsed_data.1, offset := parsed_data.2 }
  else if (find word ['"'] 0).isSome then
    match ParseUnit word with
    | .error e => .error e
    | .ok u => .ok { result with unit := u }
  else .ok result

/-- The `for` loop of `ExtractRulesFromSingleSignal` over the words. -/
def applyWords {F : Type} (ops : FloatOps F) :
    CANSignal F → List Str → Except Err (CANSignal F)
  | result, [] => .ok result
  | result, word :: words =>
    match applyWord ops result word with
    | .error e => .error e
    | .ok r => applyWords ops r words

/-- `ExtractRulesFromSingleSignal`. -/
def ExtractRulesFromSingleSignal {F : Type} (ops : FloatOps F) (input_data : Str) :
    Except Err (CANSignal F) :=
  let str_data := TrimString input_data
  match ParseName str_data with
  | .error e => .error e
  | .ok name => applyWords ops { CANSignal.init ops with name := name } (SplitIntoWords str_data)

/-! ## The value extractor -/

/-- The `for` loop of `ComputeValue`: `n` iterations are left, `i` is the loop counter,
`m` is `match_value`.  A shift count outside `0..63` is undefined behaviour. -/
def maskLoop (start_bit : Int) : Nat → Int → Nat → Except Err Nat
  | 0, _, m => .ok m
  | n + 1, i, m =>
    if 0 ≤ start_bit + i ∧ start_bit + i < 64 then
      maskLoop start_bit n (i + 1) ((m ||| (1 <<< (start_bit + i).toNat)) % 2 ^ 64)
    else .error .undefined

/-- The mask built by the loop of `ComputeValue` for a signal: `match_value` after the
loop, which runs for `i = 0, ..., length - 1`. -/
def buildMask (start_bit length : Int) : Except Err Nat :=
  maskLoop start_bit length.toNat 0 0

/-- The value `match_value` holds after `(match_value & raw_data) >> start_bit`. -/
def maskedValue (raw_data : Nat) (start_bit length : Int) : Except Err Nat :=
  match buildMask start_bit length with
  | .error e => .error e
  | .ok match_value =>
    if 0 ≤ start_bit ∧ start_bit < 64 then
      .ok ((match_value &&& (raw_data % 2 ^ 64)) >>> start_bit.toNat)
    else .error .undefined

/-- `ComputeValue`. -/
def ComputeValue {F : Type} (ops : FloatOps F) (raw_data : Nat) (input_data : Str) :
    Except Err F :=
  match ExtractRulesFromSingleSignal ops input_data with
  | .error e => .error e
  | .ok signal =>
    match maskedValue raw_data signal.start_bit signal.bit_length with
    | .error e => .error e
    | .ok match_value =>
      .ok (ops.add (ops.mul (ops.ofUInt64 match_value) signal.scale_factor) signal.offset)

/-! ## The line loop of `main` -/

/-- The header test of `main`: more than three characters, the first four being
`"BO_ "`. -/
def isHeader (line : Str) : Bool :=
  decide (3 < line.length) && decide (line.take 4 = ['B', 'O', '_', ' '])

/-- The nested `while (std::getline ...)` loops of `main` as one pass over the lines.
`messages` is the vector of messages pushed so far; the second argument is `none` while
the outer loop is reading and `some insert_data` while the inner loop is collecting the
signals of `insert_data`.  When the lines run out the function returns `messages`. -/
def mainLoop {F : Type} (ops : FloatOps F) :
    List (CANMessage F) → Option (CANMessage F) → List Str → Except Err (List (CANMessage F))
  | messages, _, [] => .ok messages
  | messages, none, line :: rest =>
    if isHeader line then
      match ParseMessage line with
      | .error e => .error e
      | .ok parsed_data =>
        mainLoop ops messages
          (some { signals := [], name := parsed_data.1, id := parsed_data.2 }) rest
    else mainLoop ops messages none rest
  | messages, some insert_data, line :: rest =>
    if line.isEmpty then mainLoop ops (messages ++ [insert_data]) none rest
    else
      match ExtractRulesFromSingleSignal ops line with
      | .error e => .error e
      | .ok signal =>
        mainLoop ops messages
          (some { insert_data with signals := insert_data.signals ++ [signal] }) rest

/-- The vector `messages` at the end of `main`, from the lines of the file. -/
def parseLines {F : Type} (ops : FloatOps F) (lines : List Str) :
    Except Err (List (CANMessage F)) :=
  mainLoop ops [] none lines

/-! ## Exact arithmetic

An instance of `FloatOps` in which every operation is exact: rationals extended by the
infinities and a NaN.  On inputs whose values and results are exactly representable
(small integers, dyadic fractions) IEEE arithmetic gives the same numbers; the instance
is used to evaluate such examples. -/

/-- Extended rationals. -/
inductive XReal where
  | fin (q : ℚ)
  | inf (neg : Bool)
  | nan
  deriving DecidableEq

/-- Exact product. -/
def XReal.mul : XReal → XReal → XReal
  | .fin a, .fin b => .fin (a * b)
  | .fin a, .inf n => if a = 0 then .nan else .inf (xor n (decide (a < 0)))
  | .inf n, .fin a => if a = 0 then .nan else .inf (xor n (decide (a < 0)))
  | .inf n, .inf m => .inf (xor n m)
  | _, _ => .nan

/-- Exact sum. -/
def XReal.add : XReal → XReal → XReal
  | .fin a, .fin b => .fin (a + b)
  | .fin _, .inf n => .inf n
  | .inf n, .fin _ => .inf n
  | .inf n, .inf m => if n = m then .inf n else .nan
  | _, _ => .nan

/-- The value `± mant * base ^ e` as a rational. -/
def scaledRat (neg : Bool) (mant base : Nat) (e : Int) : ℚ :=
  let q : ℚ := if 0 ≤ e then ((mant * base ^ e.toNat : Nat) : ℚ)
               else ((mant : Nat) : ℚ) / ((base ^ (-e).toNat : Nat) : ℚ)
  if neg then -q else q

/-- Exact arithmetic as a `FloatOps`; no conversion reports a range error. -/
def exactOps : FloatOps XReal where
  ofLit
    | .dec neg m e => .ok (.fin (scaledRat neg m 10 e))
    | .hex neg m e => .ok (.fin (scaledRat neg m 2 e))
    | .inf neg => .ok (.inf neg)
    | .nan _ => .ok .nan
  ofUInt64 n := .fin (n : ℚ)
  mul := XReal.mul
  add := XReal.add
  zero := .fin 0

/-! ## Shapes of input lines

The line shapes the specification talks about, used to state properties. -/

/-- Words, each preceded by one space. -/
def spaced : List Str → Str
  | [] => []
  | w :: ws => ' ' :: (w ++ spaced ws)

/-- A signal line: the five characters `" SG_ "`, a name, `':'`, and then the words
`ws`, each preceded by one space. -/
def signalLine (name : Str) (ws : List Str) : Str :=
  [' ', 'S', 'G', '_', ' '] ++ name ++ ':' :: spaced ws

/-- A message block of the input together with what its lines decode to: the lines
that precede the header, the header line with its name and id, and the signal lines,
each paired with its signal. -/
structure Block (F : Type) where
  junk : List Str
  header : Str
  name : Str
  id : Int
  sigs : List (Str × CANSignal F)

/-- The lines of a block: the skipped lines, the header, the signal lines and one empty
line. -/
def Block.lines {F : Type} (b : Block F) : List Str :=
  b.junk ++ b.header :: (b.sigs.map Prod.fst ++ [[]])

/-- The message a block stands for. -/
def Block.message {F : Type} (b : Block F) : CANMessage F :=
  { signals := b.sigs.map Prod.snd, name := b.name, id := b.id }

/-- The lines of a sequence of blocks, in order. -/
def blocksLines {F : Type} : List (Block F) → List Str
  | [] => []
  | b :: bs => b.lines ++ blocksLines bs

/-- A decimal numeral as the specification writes it in a scale/offset token: an
optional minus sign, digits, and optionally a point followed by digits. -/
structure Decimal where
  neg : Bool
  ip : Str
  frac : Option Str
  deriving DecidableEq

/-- The digits after the point (none when there is no point). -/
def Decimal.fp (a : Decimal) : Str := a.frac.getD []

/-- The point and the digits after it, when there is a point. -/
def fracText : Option Str → Str
  | none => []
  | some f => '.' :: f

/-- The characters of the numeral. -/
def Decimal.text (a : Decimal) : Str :=
  (if a.neg then ['-'] else []) ++ (a.ip ++ fracText a.frac)

/-- Well-formed: only digits around the point, and at least one digit. -/
def Decimal.wf (a : Decimal) : Bool :=
  a.ip.all isDigitC && a.fp.all isDigitC && !(a.ip ++ a.fp).isEmpty

/-- The number the numeral denotes, `± digits * 10 ^ (-(number of fraction digits))`. -/
def Decimal.lit (a : Decimal) : FloatLit :=
  .dec a.neg (digitsVal 10 (a.ip ++ a.fp)) (-(a.fp.length : Int))

/-- The characters a decimal numeral is made of after its sign. -/
def isNumCh (c : Char) : Bool := isDigitC c || c == '.'

/-- Is the first character of the text one that satisfies `p`? -/
def headIs (p : Char → Bool) : Str → Bool
  | [] => false
  | c :: _ => p c

/-- A well-formed decimal integer: an optional sign and then digits only, at least
one. -/
def isDecimalInt (s : Str) : Bool :=
  !(takeSign s).2.isEmpty && (takeSign s).2.all isDigitC

/-- Does the text begin with a decimal integer: optional white space, an optional sign
and at least one digit? -/
def beginsWithInt (s : Str) : Bool :=
  headIs isDigitC (takeSign (s.dropWhile isSpaceC)).2

/-- Does the text (white space and sign removed) begin with a number: a digit, a point
followed by a digit, or one of the words `inf`, `nan` in any case? -/
def numberHead (u : Str) : Bool :=
  headIs isDigitC u || (headIs (fun c => c == '.') u && headIs isDigitC u.tail)
    || startsWithCI u [('i', 'I'), ('n', 'N'), ('f', 'F')]
    || startsWithCI u [('n', 'N'), ('a', 'A'), ('n', 'N')]

/-- Does the text begin with a number: optional white space, an optional sign and then
the beginning of a number? -/
def beginsWithNumber (s : Str) : Bool :=
  numberHead (takeSign (s.dropWhile isSpaceC)).2

/-- A character that can neither continue nor start a number: not white space, a sign,
a digit, a point or one of the letters of `inf`, `nan`, an exponent or `0x`. -/
def isStopCh (c : Char) : Bool :=
  !(isSpaceC c || isDigitC c || ['-', '+', '.', 'i', 'I', 'n', 'N', 'a', 'A', 'f', 'F',
    'e', 'E', 'x', 'X'].contains c)

/-! ## Token classes

The classification of words the specification describes (its `classify_and_parse`),
stated apart from the code so that the loop body can be compared with it. -/

/-- The class of a word, by its punctuation: a bit-layout when it contains `'@'`,
otherwise a scale/offset when it contains `'('`, otherwise a unit when it contains
`'"'`, otherwise unrecognized. -/
inductive TokenClass where
  | bitLayout
  | scaleOffset
  | unit
  | unrecognized
  deriving DecidableEq

/-- The class of a word. -/
def tokenClass (w : Str) : TokenClass :=
  if '@' ∈ w then .bitLayout
  else if '(' ∈ w then .scaleOffset
  else if '"' ∈ w then .unit
  else .unrecognized

/-- The parsed content of a word: the tagged variant of the specification. -/
inductive FieldData (F : Type) where
  | BitLayout (start_bit bit_length : Int) (is_signed : Bool) (byte_order : Encoding)
  | ScaleOffset (scale offset : F)
  | Unit (text : Str)
  | Unrecognized

/-- The class a parsed content belongs to. -/
def FieldData.kind {F : Type} : FieldData F → TokenClass
  | .BitLayout _ _ _ _ => .bitLayout
  | .ScaleOffset _ _ => .scaleOffset
  | .Unit _ => .unit
  | .Unrecognized => .unrecognized

/-- Merge a parsed content into the signal under construction. -/
def FieldData.merge {F : Type} : FieldData F → CANSignal F → CANSignal F
  | .BitLayout s l sg bo, sig =>
    { sig with bit_length := l, start_bit := s, is_signed := sg, encoding_type := bo }
  | .ScaleOffset a b, sig => { sig with scale_factor := a, offset := b }
  | .Unit u, sig => { sig with unit := u }
  | .Unrecognized, sig => sig

/-- Classify a word and parse it with the parser of its class. -/
def classify_and_parse {F : Type} (ops : FloatOps F) (token : Str) :
    Except Err (FieldData F) :=
  match tokenClass token with
  | .bitLayout =>
    (ParseLenghtStartBit token).map (fun p => .BitLayout p.2.1 p.1 p.2.2.1 p.2.2.2)
  | .scaleOffset => (ParseScaleOffset ops token).map (fun p => .ScaleOffset p.1 p.2)
  | .unit => (ParseUnit token).map (fun u => .Unit u)
  | .unrecognized => .ok .Unrecognized

/-- The number of words of a class in a list of words. -/
def classCount (k : TokenClass) (ws : List Str) : Nat :=
  ws.countP (fun w => decide (tokenClass w = k))

/-- The fields of a signal that belong to a class, as a parsed content of that class. -/
def classFields {F : Type} (k : TokenClass) (sig : CANSignal F) : FieldData F :=
  match k with
  | .bitLayout => .BitLayout sig.start_bit sig.bit_length sig.is_signed sig.encoding_type
  | .scaleOffset => .ScaleOffset sig.scale_factor sig.offset
  | .unit => .Unit sig.unit
  | .unrecognized => .Unrecognized

/-! ## Binary floating-point arithmetic

The arithmetic of the program on rationals: `std::stof` rounds a numeral to the nearest
`float` (binary32, ties to even) and reports a range error when the result overflows or
underflows; the value is then widened to `double` without change.  Products, sums and
the conversion of a `uint64_t` are rounded to `double` (binary64).  Signed zeros and NaN
payloads are not distinguished. -/

end DBC

namespace DBC

/-! ## Lemmas on the string primitives -/

theorem startsWith_single (c : Char) (s : Str) :
    startsWith s [c] = (match s with | [] => false | d :: _ => d == c) := by
  cases s with
  | nil => rfl
  | cons d t => cases t <;> simp [startsWith]

theorem findAux_single_none {c : Char} {s : Str} (h : c ∉ s) (i : Nat) :
    findAux [c] s i = none := by
  induction s generalizing i with
  | nil => simp [findAux, startsWith]
  | cons d t ih =>
    simp only [List.mem_cons, not_or] at h
    have hd : (d == c) = false := by simpa using fun e => h.1 e.symm
    simp [findAux, startsWith_single, hd, ih h.2]

theorem findAux_single_some {c : Char} {pre : Str} (h : c ∉ pre) (rest : Str) (i : Nat) :
    findAux [c] (pre ++ c :: rest) i = some (i + pre.length) := by
  induction pre generalizing i with
  | nil => simp [findAux, startsWith_single]
  | cons d t ih =>
    simp only [List.mem_cons, not_or] at h
    have hd : (d == c) = false := by simpa using fun e => h.1 e.symm
    simp [findAux, startsWith_single, hd, ih h.2]
    omega

theorem find_single_none {c : Char} {s : Str} (h : c ∉ s) : find s [c] 0 = none := by
  simp [find, findAux_single_none h]

theorem find_single_some {c : Char} {pre : Str} (h : c ∉ pre) (rest : Str) :
    find (pre ++ c :: rest) [c] 0 = some pre.length := by
  simp [find, findAux_single_some h]

theorem find_single_isSome (c : Char) (s : Str) :
    (find s [c] 0).isSome = decide (c ∈ s) := by
  by_cases h : c ∈ s
  · obtain ⟨pre, rest, rfl, hpre⟩ := List.eq_append_cons_of_mem h
    rw [find_single_some hpre]
    simp
  · rw [find_single_none h]
    simp [h]

/-- `find` from a position inside a part that does not contain the character. -/
theorem find_single_from {c : Char} (pre rest : Str) (pos : Nat)
    (hpos : pos ≤ pre.length) (h : c ∉ pre.drop pos) :
    find (pre ++ c :: rest) [c] pos = some pre.length := by
  have hd : (pre ++ c :: rest).drop pos = pre.drop pos ++ c :: rest := by
    rw [List.drop_append_of_le_length hpos]
  have hl : pos ≤ (pre ++ c :: rest).length := by simp; omega
  simp only [find, hl, if_true, hd]
  rw [findAux_single_some h]
  simp
  omega

theorem findIfAux_none {p : Char → Bool} {s : Str} (h : ∀ c ∈ s, p c = false) (i : Nat) :
    findIfAux p s i = none := by
  induction s generalizing i with
  | nil => rfl
  | cons d t ih =>
    simp [findIfAux, h d (List.mem_cons_self _ _),
      ih (fun c hc => h c (List.mem_cons_of_mem _ hc))]

theorem findIfAux_some {p : Char → Bool} {pre : Str} (h : ∀ c ∈ pre, p c = false)
    {d : Char} (hd : p d = true) (rest : Str) (i : Nat) :
    findIfAux p (pre ++ d :: rest) i = some (i + pre.length) := by
  induction pre generalizing i with
  | nil => simp [findIfAux, hd]
  | cons e t ih =>
    simp [findIfAux, h e (List.mem_cons_self _ _),
      ih (fun c hc => h c (List.mem_cons_of_mem _ hc))]
    omega

theorem find_first_of_single_from {c : Char} (pre rest : Str) (pos : Nat)
    (hpos : pos ≤ pre.length) (h : c ∉ pre.drop pos) :
    find_first_of (pre ++ c :: rest) [c] pos = some pre.length := by
  have hd : (pre ++ c :: rest).drop pos = pre.drop pos ++ c :: rest := by
    rw [List.drop_append_of_le_length hpos]
  simp only [find_first_of, hd]
  rw [findIfAux_some (p := fun x => [c].contains x)]
  · simp; omega
  · intro x hx
    have : x ≠ c := fun e => h (e ▸ hx)
    simpa using this
  · simp

end DBC

namespace DBC

/-! ## Lemmas on `stoi` -/

theorem isSpaceC_of_isDigitC {c : Char} (h : isDigitC c = true) : isSpaceC c = false := by
  simp only [isDigitC, Bool.and_eq_true, decide_eq_true_eq] at h
  simp only [isSpaceC, Bool.or_eq_false_iff, beq_eq_false_iff_ne, ne_eq]
  refine ⟨⟨⟨⟨⟨?_, ?_⟩, ?_⟩, ?_⟩, ?_⟩, ?_⟩ <;> intro e <;> (try subst e) <;>
    first
      | (revert h; decide)
      | omega

theorem ne_minus_of_isDigitC {c : Char} (h : isDigitC c = true) : c ≠ '-' := by
  intro e; subst e; revert h; decide

theorem ne_plus_of_isDigitC {c : Char} (h : isDigitC c = true) : c ≠ '+' := by
  intro e; subst e; revert h; decide

theorem takeSign_cons_other {c : Char} (s : Str) (h1 : c ≠ '-') (h2 : c ≠ '+') :
    takeSign (c :: s) = (false, c :: s) := by
  unfold takeSign
  split
  · next heq => cases heq; exact absurd rfl h1
  · next heq => cases heq; exact absurd rfl h2
  · rfl

theorem takeWhile_append_stop {p : Char → Bool} {ds : Str} (hd : ∀ c ∈ ds, p c = true)
    {rest : Str} (hrest : ∀ c ∈ rest.head?, p c = false) :
    (ds ++ rest).takeWhile p = ds := by
  induction ds with
  | nil =>
    cases rest with
    | nil => rfl
    | cons r rs => simp [List.takeWhile, hrest r (by simp)]
  | cons d t ih =>
    simp [List.takeWhile, hd d (List.mem_cons_self _ _),
      ih (fun c hc => hd c (List.mem_cons_of_mem _ hc))]

theorem dropWhile_append_stop {p : Char → Bool} {ds : Str} (hd : ∀ c ∈ ds, p c = true)
    {rest : Str} (hrest : ∀ c ∈ rest.head?, p c = false) :
    (ds ++ rest).dropWhile p = rest := by
  induction ds with
  | nil =>
    cases rest with
    | nil => rfl
    | cons r rs => simp [List.dropWhile, hrest r (by simp)]
  | cons d t ih =>
    simp [List.dropWhile, hd d (List.mem_cons_self _ _),
      ih (fun c hc => hd c (List.mem_cons_of_mem _ hc))]

/-- The value of a digit string, digit by digit: appending a digit multiplies by the
base and adds the digit. -/
theorem digitsVal_append_single (b : Nat) (ds : Str) (c : Char) :
    digitsVal b (ds ++ [c]) = digitsVal b ds * b + hexVal c := by
  simp [digitsVal]

/-- `stoi` reads a leading digit string and ignores what follows it. -/
theorem stoi_digits {ds : Str} (hne : ds ≠ []) (hd : ∀ c ∈ ds, isDigitC c = true)
    {rest : Str} (hrest : ∀ c ∈ rest.head?, isDigitC c = false)
    (hfit : digitsVal 10 ds ≤ 2147483647) :
    stoi (ds ++ rest) = .ok (digitsVal 10 ds : Int) := by
  obtain ⟨d, t, rfl⟩ := List.exists_cons_of_ne_nil hne
  have hdd : isDigitC d = true := hd d (List.mem_cons_self _ _)
  have h1 : (d :: t ++ rest).dropWhile isSpaceC = d :: t ++ rest := by
    simp [List.dropWhile, isSpaceC_of_isDigitC hdd]
  have h2 : takeSign (d :: (t ++ rest)) = (false, d :: (t ++ rest)) :=
    takeSign_cons_other _ (ne_minus_of_isDigitC hdd) (ne_plus_of_isDigitC hdd)
  have h3 : (d :: t ++ rest).takeWhile isDigitC = d :: t := takeWhile_append_stop hd hrest
  have h4 : (0 : Int) ≤ (digitsVal 10 (d :: t) : Int) := Int.ofNat_nonneg _
  have h5 : ((digitsVal 10 (d :: t) : Nat) : Int) ≤ 2147483647 := by exact_mod_cast hfit
  unfold stoi
  simp only [h1]
  rw [List.cons_append] at h3 ⊢
  simp only [h2, h3]
  simp
  omega

theorem take_append_cons_of_lt {ds : Str} (c : Char) (rest : Str) {n : Nat}
    (h : ds.length < n) :
    (ds ++ c :: rest).take n = ds ++ c :: rest.take (n - ds.length - 1) := by
  rw [List.take_append_eq_append_take, List.take_of_length_le (Nat.le_of_lt h)]
  have : n - ds.length = (n - ds.length - 1) + 1 := by omega
  rw [this, List.take_succ_cons]
  simp

end DBC

namespace DBC

theorem not_mem_of_all_digits {ds : Str} (hd : ∀ c ∈ ds, isDigitC c = true) {x : Char}
    (hx : isDigitC x = false) : x ∉ ds := by
  intro h
  have := hd x h
  simp [hx] at this

theorem drop_eq_of_length {a : Str} (b : Str) {n : Nat} (h : n = a.length) :
    (a ++ b).drop n = b := by
  subst h; simp

theorem parseMessage_shape (digits name rest : Str)
    (hne : digits ≠ []) (hd : ∀ c ∈ digits, isDigitC c = true)
    (hfit : digitsVal 10 digits ≤ 2147483647)
    (hcol : ':' ∉ name) :
    ParseMessage (['B', 'O', '_', ' '] ++ digits ++ ' ' :: (name ++ ':' :: rest))
      = .ok (name, (digitsVal 10 digits : Int)) := by
  have hlen : 1 ≤ digits.length := List.length_pos.mpr hne
  have hspd : ' ' ∉ digits := not_mem_of_all_digits hd (by decide)
  have hcold : ':' ∉ digits := not_mem_of_all_digits hd (by decide)
  have hf1 : find (['B', 'O', '_', ' '] ++ digits ++ ' ' :: (name ++ ':' :: rest)) [' '] 5
      = some (4 + digits.length) := by
    rw [find_single_from (['B', 'O', '_', ' '] ++ digits)]
    · simp; omega
    · simp; omega
    · intro h
      have h2 : ' ' ∈ digits.drop 1 := by simpa using h
      exact hspd (List.mem_of_mem_drop h2)
  have hf2 : find_first_of (['B', 'O', '_', ' '] ++ digits ++ ' ' :: (name ++ ':' :: rest))
      [':'] 0 = some (4 + digits.length + 1 + name.length) := by
    have e : ['B', 'O', '_', ' '] ++ digits ++ ' ' :: (name ++ ':' :: rest)
        = (['B', 'O', '_', ' '] ++ digits ++ ' ' :: name) ++ ':' :: rest := by simp
    rw [e, find_first_of_single_from (['B', 'O', '_', ' '] ++ digits ++ ' ' :: name)]
    · simp; omega
    · simp
    · simp [hcold, hcol]
  have hr : range (['B', 'O', '_', ' '] ++ digits ++ ' ' :: (name ++ ':' :: rest))
      (some (4 + digits.length + 1)) (some (4 + digits.length + 1 + name.length))
      = .ok name := by
    have e : (['B', 'O', '_', ' '] ++ digits ++ ' ' :: (name ++ ':' :: rest)).drop
        (4 + digits.length + 1) = name ++ ':' :: rest := by
      have : ['B', 'O', '_', ' '] ++ digits ++ ' ' :: (name ++ ':' :: rest)
          = (['B', 'O', '_', ' '] ++ digits ++ [' ']) ++ (name ++ ':' :: rest) := by simp
      rw [this]
      exact drop_eq_of_length _ (by simp; omega)
    simp only [range, e]
    rw [if_pos]
    · simp
    · simp; omega
  have hs : substr (['B', 'O', '_', ' '] ++ digits ++ ' ' :: (name ++ ':' :: rest)) 4
      (some (4 + digits.length))
      = .ok (digits ++ ' ' :: (name ++ ':' :: rest).take (4 + digits.length - digits.length - 1)) := by
    have e : (['B', 'O', '_', ' '] ++ digits ++ ' ' :: (name ++ ':' :: rest)).drop 4
        = digits ++ ' ' :: (name ++ ':' :: rest) := by simp
    simp only [substr, e]
    rw [if_pos (by simp)]
    rw [take_append_cons_of_lt _ _ (by omega)]
  unfold ParseMessage
  rw [hf1, hf2]
  simp only [Option.map, hr, hs]
  rw [stoi_digits hne hd (by simp [isDigitC]) hfit]

/-- The encoding `ParseLenghtStartBit` computes from a token. -/
theorem parseLenghtStartBit_shape (s l tail : Str)
    (hs : s ≠ []) (hsd : ∀ c ∈ s, isDigitC c = true) (hsfit : digitsVal 10 s ≤ 2147483647)
    (hl : l ≠ []) (hld : ∀ c ∈ l, isDigitC c = true) (hlfit : digitsVal 10 l ≤ 2147483647) :
    ParseLenghtStartBit (s ++ '|' :: (l ++ '@' :: tail))
      = .ok ((digitsVal 10 l : Int), (digitsVal 10 s : Int),
          decide ('-' ∈ s ++ '|' :: (l ++ '@' :: tail)),
          if find (s ++ '|' :: (l ++ '@' :: tail)) ['@', '0'] 0 = none
          then Encoding.BIG_ENDIAN else Encoding.LITTLE_ENDIAN) := by
  have hbar : '|' ∉ s := not_mem_of_all_digits hsd (by decide)
  have hats : '@' ∉ s := not_mem_of_all_digits hsd (by decide)
  have hatl : '@' ∉ l := not_mem_of_all_digits hld (by decide)
  have hf1 : find (s ++ '|' :: (l ++ '@' :: tail)) ['|'] 0 = some s.length :=
    find_single_some hbar _
  have hf2 : find (s ++ '|' :: (l ++ '@' :: tail)) ['@'] 0 = some (s.length + 1 + l.length) := by
    have e : s ++ '|' :: (l ++ '@' :: tail) = (s ++ '|' :: l) ++ '@' :: tail := by simp
    rw [e, find_single_some (by simp [hats, hatl])]
    simp; omega
  have hs1 : substr (s ++ '|' :: (l ++ '@' :: tail)) 0 (some s.length) = .ok s := by
    simp [substr]
  have hs2 : substr (s ++ '|' :: (l ++ '@' :: tail)) (s.length + 1) (some (s.length + 1 + l.length))
      = .ok (l ++ '@' :: tail.take (s.length + 1 + l.length - l.length - 1)) := by
    have e : (s ++ '|' :: (l ++ '@' :: tail)).drop (s.length + 1) = l ++ '@' :: tail := by
      have : s ++ '|' :: (l ++ '@' :: tail) = (s ++ ['|']) ++ (l ++ '@' :: tail) := by simp
      rw [this]
      exact drop_eq_of_length _ (by simp)
    simp only [substr, e]
    rw [if_pos (by simp)]
    rw [take_append_cons_of_lt _ _ (by omega)]
  have hv1 : stoi s = .ok (digitsVal 10 s : Int) := by
    have := @stoi_digits s hs hsd [] (by simp) hsfit
    simpa using this
  unfold ParseLenghtStartBit
  rw [hf1, hf2]
  simp only [succPos, hs1, hs2, hv1]
  rw [stoi_digits hl hld (by simp [isDigitC]) hlfit]
  simp only [find_single_isSome]

end DBC

namespace DBC

/-! ## Lemmas on the mask loop -/

theorem maskLoop_spec (s n k m : Nat) (h : s + k + n ≤ 64)
    (hm : ∀ j, m.testBit j = (decide (s ≤ j) && decide (j < s + k))) :
    ∃ r, maskLoop (s : Int) n (k : Int) m = .ok r ∧
      ∀ j, r.testBit j = (decide (s ≤ j) && decide (j < s + k + n)) := by
  induction n generalizing k m with
  | zero => exact ⟨m, rfl, by simpa using hm⟩
  | succ n ih =>
    have hc : (0 : Int) ≤ (s : Int) + (k : Int) ∧ (s : Int) + (k : Int) < 64 := by omega
    have ht : ((s : Int) + (k : Int)).toNat = s + k := by omega
    have hk : (k : Int) + 1 = ((k + 1 : Nat) : Int) := by push_cast; rfl
    unfold maskLoop
    rw [if_pos hc, ht, hk]
    have hstep : ∀ j, ((m ||| 1 <<< (s + k)) % 2 ^ 64).testBit j
        = (decide (s ≤ j) && decide (j < s + (k + 1))) := by
      intro j
      rw [Nat.testBit_mod_two_pow, Nat.testBit_or, hm j, Nat.one_shiftLeft,
        Nat.testBit_two_pow, Bool.eq_iff_iff]
      simp only [Bool.and_eq_true, Bool.or_eq_true, decide_eq_true_eq]
      omega
    obtain ⟨r, hr, hbits⟩ := ih (k + 1) _ (by omega) hstep
    refine ⟨r, hr, fun j => ?_⟩
    rw [hbits j, Bool.eq_iff_iff]
    simp only [Bool.and_eq_true, decide_eq_true_eq]
    omega

theorem testBit_field_mask (s l j : Nat) :
    ((2 ^ l - 1) * 2 ^ s).testBit j = (decide (s ≤ j) && decide (j < s + l)) := by
  rw [← Nat.shiftLeft_eq, Nat.testBit_shiftLeft, Nat.testBit_two_pow_sub_one,
    Bool.eq_iff_iff]
  simp only [Bool.and_eq_true, decide_eq_true_eq, ge_iff_le]
  omega

/-- The loop builds the contiguous mask of `l` ones starting at bit `s`. -/
theorem buildMask_eq (s l : Nat) (h : s + l ≤ 64) :
    buildMask (s : Int) (l : Int) = .ok ((2 ^ l - 1) * 2 ^ s) := by
  obtain ⟨r, hr, hbits⟩ := maskLoop_spec s l 0 0 (by omega) (by intro j; simp)
  have : r = (2 ^ l - 1) * 2 ^ s := by
    apply Nat.eq_of_testBit_eq
    intro j
    rw [hbits j, testBit_field_mask]
    simp
  subst this
  simpa [buildMask] using hr

/-- The masked and shifted value is the `l`-bit field of the payload at bit `s`. -/
theorem maskedValue_eq (raw s l : Nat) (h1 : 1 ≤ l) (h : s + l ≤ 64) :
    maskedValue raw (s : Int) (l : Int) = .ok ((raw >>> s) % 2 ^ l) := by
  have hc : (0 : Int) ≤ (s : Int) ∧ (s : Int) < 64 := by omega
  unfold maskedValue
  rw [buildMask_eq s l h]
  simp only [if_pos hc, Int.toNat_ofNat]
  congr 1
  apply Nat.eq_of_testBit_eq
  intro j
  rw [Nat.testBit_shiftRight, Nat.testBit_and, testBit_field_mask, Nat.testBit_mod_two_pow,
    Nat.testBit_mod_two_pow, Nat.testBit_shiftRight, Bool.eq_iff_iff]
  simp only [Bool.and_eq_true, decide_eq_true_eq]
  constructor
  · rintro ⟨⟨_, h2⟩, _, h3⟩
    exact ⟨by omega, h3⟩
  · rintro ⟨h2, h3⟩
    exact ⟨⟨by omega, by omega⟩, by omega, h3⟩

end DBC

namespace DBC

/-! ## Lemmas on trimming and splitting -/

theorem trimString_parts (pre mid post : Str)
    (hpre : ∀ c ∈ pre, c = ' ' ∨ c = '\t') (hpost : ∀ c ∈ post, c = ' ' ∨ c = '\t')
    (hne : mid ≠ [])
    (hfirst : ∀ c ∈ mid.head?, c ≠ ' ' ∧ c ≠ '\t')
    (hlast : ∀ c ∈ mid.getLast?, c ≠ ' ' ∧ c ≠ '\t') :
    TrimString (pre ++ mid ++ post) = mid := by
  obtain ⟨m, mt, rfl⟩ := List.exists_cons_of_ne_nil hne
  obtain ⟨mi, ml, hml⟩ : ∃ mi ml, m :: mt = mi ++ [ml] :=
    ⟨(m :: mt).dropLast, (m :: mt).getLast (by simp), (List.dropLast_append_getLast _).symm⟩
  have hm : m ≠ ' ' ∧ m ≠ '\t' := hfirst m (by simp)
  have hl : ml ≠ ' ' ∧ ml ≠ '\t' := hlast ml (by rw [hml]; simp)
  have p1 : ∀ c ∈ pre, (fun c => !(List.contains [' ', '\t'] c)) c = false := by
    intro c hc
    rcases hpre c hc with h | h <;> simp [h]
  have p2 : ∀ c ∈ post.reverse, (fun c => !(List.contains [' ', '\t'] c)) c = false := by
    intro c hc
    rcases hpost c (List.mem_reverse.mp hc) with h | h <;> simp [h]
  have hf : find_first_not_of (pre ++ (m :: mt) ++ post) [' ', '\t'] = some pre.length := by
    unfold find_first_not_of
    rw [List.append_assoc, List.cons_append, findIfAux_some p1 (by simp [hm.1, hm.2])]
    simp
  have hg : find_last_not_of (pre ++ (m :: mt) ++ post) [' ', '\t']
      = some (pre.length + (m :: mt).length - 1) := by
    unfold find_last_not_of
    have e : (pre ++ (m :: mt) ++ post).reverse = post.reverse ++ ml :: (mi.reverse ++ pre.reverse) := by
      rw [hml]; simp
    rw [e, findIfAux_some p2 (by simp [hl.1, hl.2])]
    simp only [List.length_append, List.length_reverse, Nat.zero_add, List.length_cons]
    congr 1
    omega
  unfold TrimString
  rw [hf, hg]
  simp only []
  rw [List.append_assoc, drop_eq_of_length _ rfl]
  have : pre.length + (m :: mt).length - 1 - pre.length + 1 = (m :: mt).length := by
    simp
  rw [this, List.take_left]

theorem splitLoop_word (w rest : Str) (words : List Str) (word : Str) (h : ' ' ∉ w) :
    splitLoop (w ++ rest) words word = splitLoop rest words (word ++ w) := by
  induction w generalizing word with
  | nil => simp
  | cons c t ih =>
    simp only [List.mem_cons, not_or] at h
    have hc : (c == ' ') = false := by simpa using fun e => h.1 e.symm
    rw [List.cons_append, splitLoop]
    simp only [hc, Bool.false_eq_true, if_false]
    rw [ih _ h.2]
    simp

theorem splitLoop_spaced (ws : List Str) (words : List Str) (word : Str)
    (hword : word ≠ []) (hws : ∀ w ∈ ws, w ≠ [] ∧ ' ' ∉ w) :
    splitLoop (spaced ws) words word = words ++ word :: ws := by
  induction ws generalizing words word with
  | nil => simp [spaced, splitLoop, hword]
  | cons w ws ih =>
    have hw := hws w (List.mem_cons_self _ _)
    have : word.isEmpty = false := by
      cases word with
      | nil => exact absurd rfl hword
      | cons _ _ => rfl
    rw [spaced, splitLoop]
    simp only [beq_self_eq_true, if_true, this, Bool.false_eq_true, if_false]
    rw [splitLoop_word _ _ _ _ hw.2, ih _ _ (by simp [hw.1])
      (fun v hv => hws v (List.mem_cons_of_mem _ hv))]
    simp

/-- Words joined by single spaces are split back into the same words. -/
theorem splitIntoWords_spaced (w : Str) (ws : List Str) (hw : w ≠ [] ∧ ' ' ∉ w)
    (hws : ∀ v ∈ ws, v ≠ [] ∧ ' ' ∉ v) :
    SplitIntoWords (w ++ spaced ws) = w :: ws := by
  unfold SplitIntoWords
  rw [splitLoop_word _ _ _ _ hw.2, splitLoop_spaced _ _ _ (by simp [hw.1]) hws]
  simp

end DBC

namespace DBC

/-! ## Lemmas on signal lines -/

theorem getLast_spaced (ws : List Str) (hws : ∀ w ∈ ws, w ≠ [] ∧ ' ' ∉ w ∧ '\t' ∉ w)
    (X : Str) (c : Char) (hc : (X ++ spaced ws).getLast? = some c) :
    X.getLast? = some c ∨ (c ≠ ' ' ∧ c ≠ '\t') := by
  induction ws generalizing X with
  | nil => left; simpa [spaced] using hc
  | cons w ws ih =>
    have hw := hws w (List.mem_cons_self _ _)
    have e : X ++ spaced (w :: ws) = (X ++ ' ' :: w) ++ spaced ws := by simp [spaced]
    rw [e] at hc
    rcases ih (fun v hv => hws v (List.mem_cons_of_mem _ hv)) _ hc with h | h
    · right
      have e2 : X ++ ' ' :: w = (X ++ [' ']) ++ w := by simp
      rw [e2, List.getLast?_append_of_ne_nil _ hw.1] at h
      have hm := List.mem_of_getLast?_eq_some h
      exact ⟨fun e => hw.2.1 (e ▸ hm), fun e => hw.2.2 (e ▸ hm)⟩
    · exact Or.inr h

theorem applyWord_plain {F : Type} (ops : FloatOps F) (r : CANSignal F) (w : Str)
    (h1 : '@' ∉ w) (h2 : '(' ∉ w) (h3 : '"' ∉ w) : applyWord ops r w = .ok r := by
  simp [applyWord, find_single_isSome, h1, h2, h3]

theorem parseName_body (name : Str) (w : Str) (ws : List Str) (hne : name ≠ [])
    (hsp : ' ' ∉ name) :
    ParseName (['S', 'G', '_', ' '] ++ name ++ ':' :: spaced (w :: ws))
      = .ok (name.drop 1 ++ [':']) := by
  have hlen : 1 ≤ name.length := List.length_pos.mpr hne
  have e : ['S', 'G', '_', ' '] ++ name ++ ':' :: spaced (w :: ws)
      = (['S', 'G', '_', ' '] ++ name ++ [':']) ++ ' ' :: (w ++ spaced ws) := by
    simp [spaced]
  have hf : find_first_of (['S', 'G', '_', ' '] ++ name ++ ':' :: spaced (w :: ws)) [' '] 5
      = some (name.length + 5) := by
    rw [e, find_first_of_single_from (['S', 'G', '_', ' '] ++ name ++ [':'])]
    · simp
    · simp
    · intro h
      have h2 : ' ' ∈ (name ++ [':']).drop 1 := by simpa using h
      have h3 := List.mem_of_mem_drop h2
      simp at h3
      exact hsp h3
  have hd : (['S', 'G', '_', ' '] ++ name ++ ':' :: spaced (w :: ws)).drop 5
      = name.drop 1 ++ ':' :: spaced (w :: ws) := by
    obtain ⟨n, nt, rfl⟩ := List.exists_cons_of_ne_nil hne
    simp
  unfold ParseName
  rw [hf]
  simp only [range, hd]
  rw [if_pos (by simp)]
  have hk : name.length + 5 - 5 = (name.drop 1 ++ [':']).length := by simp; omega
  have e3 : name.drop 1 ++ ':' :: spaced (w :: ws) = (name.drop 1 ++ [':']) ++ spaced (w :: ws) := by
    simp
  rw [hk, e3, List.take_left]

/-- Decoding a line of the shape `" SG_ " name ":" word ... word` applies the words,
in order, to a default signal whose name is what `ParseName` cuts out. -/
theorem extract_signalLine {F : Type} (ops : FloatOps F) (name : Str) (ws : List Str)
    (hne : name ≠ []) (hsp : ' ' ∉ name)
    (hat : '@' ∉ name) (hpar : '(' ∉ name) (hq : '"' ∉ name)
    (hws0 : ws ≠ []) (hws : ∀ w ∈ ws, w ≠ [] ∧ ' ' ∉ w ∧ '\t' ∉ w) :
    ExtractRulesFromSingleSignal ops (signalLine name ws)
      = applyWords ops { CANSignal.init ops with name := name.drop 1 ++ [':'] } ws := by
  obtain ⟨w, wt, rfl⟩ := List.exists_cons_of_ne_nil hws0
  have htrim : TrimString (signalLine name (w :: wt))
      = ['S', 'G', '_', ' '] ++ name ++ ':' :: spaced (w :: wt) := by
    have e : signalLine name (w :: wt)
        = [' '] ++ (['S', 'G', '_', ' '] ++ name ++ ':' :: spaced (w :: wt)) ++ [] := by
      simp [signalLine]
    rw [e]
    apply trimString_parts
    · simp
    · simp
    · simp
    · simp
    · intro c hc
      have e2 : ['S', 'G', '_', ' '] ++ name ++ ':' :: spaced (w :: wt)
          = (['S', 'G', '_', ' '] ++ name ++ [':']) ++ spaced (w :: wt) := by simp
      rw [e2] at hc
      rcases getLast_spaced _ hws _ c hc with h | h
      · rw [List.getLast?_concat] at h
        cases h
        exact ⟨by decide, by decide⟩
      · exact h
  have hsplit : SplitIntoWords (['S', 'G', '_', ' '] ++ name ++ ':' :: spaced (w :: wt))
      = ['S', 'G', '_'] :: (name ++ [':']) :: w :: wt := by
    have e : ['S', 'G', '_', ' '] ++ name ++ ':' :: spaced (w :: wt)
        = ['S', 'G', '_'] ++ spaced ((name ++ [':']) :: w :: wt) := by
      simp [spaced]
    rw [e]
    apply splitIntoWords_spaced
    · exact ⟨by simp, by decide⟩
    · intro v hv
      rcases List.mem_cons.mp hv with h | h
      · subst h
        exact ⟨by simp, by simp [hsp]⟩
      · exact ⟨(hws v h).1, (hws v h).2.1⟩
  unfold ExtractRulesFromSingleSignal
  simp only [htrim, parseName_body name w wt hne hsp, hsplit]
  rw [applyWords, applyWord_plain ops _ _ (by decide) (by decide) (by decide)]
  simp only []
  rw [applyWords, applyWord_plain ops _ _ (by simp [hat]) (by simp [hpar]) (by simp [hq])]

end DBC

namespace DBC

/-! ## Lemmas on the word loop -/

theorem applyWords_append_ok {F : Type} (ops : FloatOps F) (a b : List Str)
    (r r2 : CANSignal F) (h : applyWords ops r (a ++ b) = .ok r2) :
    ∃ r1, applyWords ops r a = .ok r1 ∧ applyWords ops r1 b = .ok r2 := by
  induction a generalizing r with
  | nil => exact ⟨r, rfl, h⟩
  | cons w a ih =>
    rw [List.cons_append, applyWords] at h
    rw [applyWords]
    cases hw : applyWord ops r w with
    | error e => rw [hw] at h; cases h
    | ok r1 =>
      rw [hw] at h
      exact ih r1 h

/-- A word without `'@'` leaves the bit-layout fields alone. -/
theorem applyWord_layout {F : Type} (ops : FloatOps F) (r r2 : CANSignal F) (w : Str)
    (hw : '@' ∉ w) (h : applyWord ops r w = .ok r2) :
    r2.start_bit = r.start_bit ∧ r2.bit_length = r.bit_length ∧
      r2.is_signed = r.is_signed ∧ r2.encoding_type = r.encoding_type := by
  unfold applyWord at h
  simp only [find_single_isSome, hw, decide_False, Bool.false_eq_true, if_false] at h
  split at h
  · split at h
    · cases h
    · cases h; exact ⟨rfl, rfl, rfl, rfl⟩
  · split at h
    · split at h
      · cases h
      · cases h; exact ⟨rfl, rfl, rfl, rfl⟩
    · cases h; exact ⟨rfl, rfl, rfl, rfl⟩

theorem applyWords_layout {F : Type} (ops : FloatOps F) (ws : List Str)
    (r r2 : CANSignal F) (hws : ∀ w ∈ ws, '@' ∉ w) (h : applyWords ops r ws = .ok r2) :
    r2.start_bit = r.start_bit ∧ r2.bit_length = r.bit_length ∧
      r2.is_signed = r.is_signed ∧ r2.encoding_type = r.encoding_type := by
  induction ws generalizing r with
  | nil => cases h; exact ⟨rfl, rfl, rfl, rfl⟩
  | cons w ws ih =>
    rw [applyWords] at h
    cases hw : applyWord ops r w with
    | error e => rw [hw] at h; cases h
    | ok r1 =>
      rw [hw] at h
      have h1 := applyWord_layout ops r r1 w (hws w (List.mem_cons_self _ _)) hw
      have h2 := ih r1 (fun v hv => hws v (List.mem_cons_of_mem _ hv)) h
      exact ⟨h2.1.trans h1.1, h2.2.1.trans h1.2.1, h2.2.2.1.trans h1.2.2.1,
        h2.2.2.2.trans h1.2.2.2⟩

/-- The last word with an `'@'` decides the bit-layout fields of the decoded signal. -/
theorem extract_layout_of_last {F : Type} (ops : FloatOps F) (line : Str)
    (pre post : List Str) (tok : Str) (sig : CANSignal F)
    (p : Int × Int × Bool × Encoding)
    (hat : '@' ∈ tok) (htok : ParseLenghtStartBit tok = .ok p)
    (hsplit : SplitIntoWords (TrimString line) = pre ++ tok :: post)
    (hpost : ∀ w ∈ post, '@' ∉ w)
    (hdec : ExtractRulesFromSingleSignal ops line = .ok sig) :
    sig.bit_length = p.1 ∧ sig.start_bit = p.2.1 ∧ sig.is_signed = p.2.2.1 ∧
      sig.encoding_type = p.2.2.2 := by
  unfold ExtractRulesFromSingleSignal at hdec
  simp only [hsplit] at hdec
  split at hdec
  · cases hdec
  · obtain ⟨r1, _, h2⟩ := applyWords_append_ok ops _ _ _ _ hdec
    rw [applyWords] at h2
    have hw : applyWord ops r1 tok = .ok { r1 with
        bit_length := p.1, start_bit := p.2.1, is_signed := p.2.2.1,
        encoding_type := p.2.2.2 } := by
      simp [applyWord, find_single_isSome, hat, htok]
    rw [hw] at h2
    have h3 := applyWords_layout ops post _ sig hpost h2
    exact ⟨h3.2.1, h3.1, h3.2.2.1, h3.2.2.2⟩

end DBC

namespace DBC

/-! ## Claims -/

/-- C1 (value extraction).  For every payload and every line that decodes to a signal
with `start_bit = s`, `bit_length = l`, `1 ≤ l`, `s + l ≤ 64`: the loop of `ComputeValue`
builds exactly the mask `(2 ^ l - 1) * 2 ^ s`, the masked and shifted value is
`(raw >> s) mod 2 ^ l`, and `ComputeValue` returns that value times the scale plus the
offset.  In particular `s = 8, l = 4`, scale 2, offset 1 and payload `0x0F00` give 31
(in exact arithmetic, all values being representable), and `s = 0, l = 64` gives the
mask of all ones and the whole payload. -/
theorem computeValue_extracts_field :
    (∀ (F : Type) (ops : FloatOps F) (raw : Nat) (line : Str) (sig : CANSignal F)
        (s l : Nat),
        ExtractRulesFromSingleSignal ops line = .ok sig →
        sig.start_bit = (s : Int) → sig.bit_length = (l : Int) → 1 ≤ l → s + l ≤ 64 →
        buildMask sig.start_bit sig.bit_length = .ok ((2 ^ l - 1) * 2 ^ s) ∧
        maskedValue raw sig.start_bit sig.bit_length = .ok ((raw >>> s) % 2 ^ l) ∧
        ComputeValue ops raw line
          = .ok (ops.add (ops.mul (ops.ofUInt64 ((raw >>> s) % 2 ^ l)) sig.scale_factor)
              sig.offset)) ∧
    ComputeValue exactOps 0x0F00
        (signalLine ['X'] [['8', '|', '4', '@', '1', '+'], ['(', '2', ',', '1', ')']])
      = .ok (.fin 31) ∧
    buildMask 0 64 = .ok (2 ^ 64 - 1) ∧
    (∀ raw : Nat, raw < 2 ^ 64 → maskedValue raw 0 64 = .ok raw) := by
  refine ⟨?_, by decide!, by decide!, ?_⟩
  · intro F ops raw line sig s l hdec hs hl h1 h64
    have hm := maskedValue_eq raw s l h1 h64
    refine ⟨?_, ?_, ?_⟩
    · rw [hs, hl]; exact buildMask_eq s l h64
    · rw [hs, hl]; exact hm
    · unfold ComputeValue
      rw [hdec]
      simp only [hs, hl, hm]
  · intro raw hraw
    have h := maskedValue_eq raw 0 64 (by omega) (by omega)
    have e : (raw >>> 0) % 2 ^ 64 = raw := by
      rw [Nat.shiftRight_zero]; exact Nat.mod_eq_of_lt hraw
    rw [e] at h
    simpa using h

/-- Witness for C1: an 8-bit field at bit 4 of the payload `0xABCD`, scale 0.5 and
offset 3, is `0xBC = 188` and gives `188 * 0.5 + 3 = 97`. -/
theorem computeValue_extracts_field_witness :
    ComputeValue exactOps 0xABCD
        (signalLine ['T'] [['4', '|', '8', '@', '1', '+'], ['(', '0', '.', '5', ',', '3', ')']])
      = .ok (exactOps.add (exactOps.mul (exactOps.ofUInt64 ((0xABCD >>> 4) % 2 ^ 8))
          (.fin (1 / 2))) (.fin 3)) :=
  (computeValue_extracts_field.1 XReal exactOps 0xABCD
    (signalLine ['T'] [['4', '|', '8', '@', '1', '+'], ['(', '0', '.', '5', ',', '3', ')']])
    { encoding_type := .BIG_ENDIAN, name := [':'], unit := [], scale_factor := .fin (1 / 2),
      offset := .fin 3, start_bit := 4, bit_length := 8, is_signed := false }
    4 8 (by decide!) (by decide) (by decide) (by decide) (by decide)).2.2

/-- C3 (byte order), evaluation of the code.  `ParseLenghtStartBit` returns `BIG_ENDIAN`
for the token `0|16@1+`, which has no `"@0"`, and `LITTLE_ENDIAN` for the token
`0|16@0+`, which has one: the two branches are the other way round than the claim (and
the enumerators `BIG_ENDIAN = 0`, `LITTLE_ENDIAN = 1`) say; the decoded signal stores
the same value. -/
theorem parseLenghtStartBit_encoding_at_tokens :
    find ['0', '|', '1', '6', '@', '1', '+'] ['@', '0'] 0 = none ∧
    ParseLenghtStartBit ['0', '|', '1', '6', '@', '1', '+']
      = .ok (16, 0, false, Encoding.BIG_ENDIAN) ∧
    find ['0', '|', '1', '6', '@', '0', '+'] ['@', '0'] 0 = some 4 ∧
    ParseLenghtStartBit ['0', '|', '1', '6', '@', '0', '+']
      = .ok (16, 0, false, Encoding.LITTLE_ENDIAN) ∧
    Encoding.toNat .BIG_ENDIAN = 0 ∧ Encoding.toNat .LITTLE_ENDIAN = 1 ∧
    (ExtractRulesFromSingleSignal exactOps
        (signalLine ['R', 'P', 'M'] [['0', '|', '1', '6', '@', '1', '+']])).map
      (fun sig => sig.encoding_type) = .ok Encoding.BIG_ENDIAN := by
  decide

theorem trimString_signalLine (name : Str) (ws : List Str)
    (hws : ∀ w ∈ ws, w ≠ [] ∧ ' ' ∉ w ∧ '\t' ∉ w) :
    TrimString (signalLine name ws) = ['S', 'G', '_', ' '] ++ name ++ ':' :: spaced ws := by
  have e : signalLine name ws
      = [' '] ++ (['S', 'G', '_', ' '] ++ name ++ ':' :: spaced ws) ++ [] := by
    simp [signalLine]
  rw [e]
  apply trimString_parts
  · simp
  · simp
  · simp
  · simp
  · intro c hc
    have e2 : ['S', 'G', '_', ' '] ++ name ++ ':' :: spaced ws
        = (['S', 'G', '_', ' '] ++ name ++ [':']) ++ spaced ws := by simp
    rw [e2] at hc
    rcases getLast_spaced _ hws _ c hc with h | h
    · rw [List.getLast?_concat] at h
      cases h
      exact ⟨by decide, by decide⟩
    · exact h

theorem applyWord_name {F : Type} (ops : FloatOps F) (r r2 : CANSignal F) (w : Str)
    (h : applyWord ops r w = .ok r2) : r2.name = r.name := by
  unfold applyWord at h
  split at h
  · split at h
    · cases h
    · cases h; rfl
  · split at h
    · split at h
      · cases h
      · cases h; rfl
    · split at h
      · split at h
        · cases h
        · cases h; rfl
      · cases h; rfl

theorem applyWords_name {F : Type} (ops : FloatOps F) (ws : List Str)
    (r r2 : CANSignal F) (h : applyWords ops r ws = .ok r2) : r2.name = r.name := by
  induction ws generalizing r with
  | nil => cases h; rfl
  | cons w ws ih =>
    rw [applyWords] at h
    cases hw : applyWord ops r w with
    | error e => rw [hw] at h; cases h
    | ok r1 =>
      rw [hw] at h
      exact (ih r1 h).trans (applyWord_name ops r r1 w hw)

/-- C4 (signal name), evaluation of the code.  The line
`" SG_ RPM: 0|16@1+ (0.25,0) \"rpm\""` is trimmed to `"SG_ RPM: ..."`, whose marker has
four characters, before `ParseName` skips five characters: the first letter of the name
is lost and the decoded name is `"PM:"`, not `"RPM"`.  On the untrimmed line the same
`ParseName` starts at the `R`.  A line in the usual layout,
`" SG_ EngineSpeed : 24|16@1+ (0.125,0)"`, decodes to the name `"ngineSpeed"`. -/
theorem extract_name_at_rpm_line :
    TrimString " SG_ RPM: 0|16@1+ (0.25,0) \"rpm\"".toList
      = "SG_ RPM: 0|16@1+ (0.25,0) \"rpm\"".toList ∧
    ParseName (TrimString " SG_ RPM: 0|16@1+ (0.25,0) \"rpm\"".toList)
      = .ok ['P', 'M', ':'] ∧
    (ExtractRulesFromSingleSignal exactOps
        " SG_ RPM: 0|16@1+ (0.25,0) \"rpm\"".toList).map (fun sig => sig.name)
      = .ok ['P', 'M', ':'] ∧
    (ExtractRulesFromSingleSignal exactOps
        " SG_ RPM: 0|16@1+ (0.25,0) \"rpm\"".toList).map (fun sig => sig.name)
      ≠ .ok ['R', 'P', 'M'] ∧
    ParseName " SG_ RPM: 0|16@1+ (0.25,0) \"rpm\"".toList = .ok ['R', 'P', 'M', ':'] ∧
    (ExtractRulesFromSingleSignal exactOps
        " SG_ EngineSpeed : 24|16@1+ (0.125,0)".toList).map (fun sig => sig.name)
      = .ok "ngineSpeed".toList := by
  decide!

/-- For a line made of `" SG_ "`, a non-empty name without spaces, `':'` and one or more
words separated by single spaces, the decoded name is the name without its first
character, followed by the `':'`. -/
theorem extract_name_drops_first {F : Type} (ops : FloatOps F) (name : Str)
    (ws : List Str) (sig : CANSignal F)
    (hne : name ≠ []) (hsp : ' ' ∉ name)
    (hws0 : ws ≠ []) (hws : ∀ w ∈ ws, w ≠ [] ∧ ' ' ∉ w ∧ '\t' ∉ w)
    (hdec : ExtractRulesFromSingleSignal ops (signalLine name ws) = .ok sig) :
    sig.name = name.drop 1 ++ [':'] := by
  obtain ⟨w, wt, rfl⟩ := List.exists_cons_of_ne_nil hws0
  unfold ExtractRulesFromSingleSignal at hdec
  simp only [trimString_signalLine name (w :: wt) hws, parseName_body name w wt hne hsp]
    at hdec
  exact applyWords_name ops _ _ sig hdec

/-- C5 (header parsing).  For a header line `"BO_ " digits " " name ":" rest`, with a
non-empty digit string that fits an `int` and a name without `':'`, `ParseMessage`
returns the name and the numeric value of the digits. -/
theorem parseMessage_header (digits name rest : Str)
    (hne : digits ≠ []) (hd : ∀ c ∈ digits, isDigitC c = true)
    (hfit : digitsVal 10 digits ≤ 2147483647)
    (_hname : name ≠ []) (_hsp : ' ' ∉ name) (hcol : ':' ∉ name) :
    ParseMessage (['B', 'O', '_', ' '] ++ digits ++ ' ' :: (name ++ ':' :: rest))
      = .ok (name, (digitsVal 10 digits : Int)) :=
  parseMessage_shape digits name rest hne hd hfit hcol

/-- Witness for C5: `"BO_ 100 EngineData:"` gives `("EngineData", 100)`, and the
one-digit header `"BO_ 7 Lamp: 8 Vector__XXX"` gives `("Lamp", 7)`. -/
theorem parseMessage_header_witness :
    ParseMessage "BO_ 100 EngineData:".toList = .ok ("EngineData".toList, 100) ∧
    ParseMessage "BO_ 7 Lamp: 8 Vector__XXX".toList = .ok ("Lamp".toList, 7) :=
  ⟨parseMessage_header ['1', '0', '0'] "EngineData".toList []
      (by decide) (by decide) (by decide) (by decide) (by decide) (by decide),
   parseMessage_header ['7'] "Lamp".toList " 8 Vector__XXX".toList
      (by decide) (by decide) (by decide) (by decide) (by decide) (by decide)⟩

end DBC

namespace DBC

/-! ## Lemmas on the line loop -/

/-- The header test of `main` is the test that the line begins with `"BO_ "`. -/
theorem isHeader_eq_startsWith (line : Str) :
    isHeader line = startsWith line ['B', 'O', '_', ' '] := by
  rcases line with _ | ⟨a, _ | ⟨b, _ | ⟨c, _ | ⟨d, t⟩⟩⟩⟩ <;>
    simp [isHeader, startsWith, Bool.and_assoc]
  rw [Bool.eq_iff_iff]
  simp [and_assoc]

theorem mainLoop_skip {F : Type} (ops : FloatOps F) (msgs : List (CANMessage F))
    (junk rest : List Str) (hj : ∀ l ∈ junk, isHeader l = false) :
    mainLoop ops msgs none (junk ++ rest) = mainLoop ops msgs none rest := by
  induction junk with
  | nil => rfl
  | cons l junk ih =>
    rw [List.cons_append, mainLoop]
    simp only [hj l (List.mem_cons_self _ _), Bool.false_eq_true, if_false]
    exact ih (fun x hx => hj x (List.mem_cons_of_mem _ hx))

theorem mainLoop_collect {F : Type} (ops : FloatOps F) (msgs : List (CANMessage F))
    (m : CANMessage F) (sigs : List (Str × CANSignal F)) (rest : List Str)
    (hs : ∀ p ∈ sigs, p.1 ≠ [] ∧ ExtractRulesFromSingleSignal ops p.1 = .ok p.2) :
    mainLoop ops msgs (some m) (sigs.map Prod.fst ++ rest)
      = mainLoop ops msgs (some { m with signals := m.signals ++ sigs.map Prod.snd }) rest := by
  induction sigs generalizing m with
  | nil => simp
  | cons p sigs ih =>
    have hp := hs p (List.mem_cons_self _ _)
    have he : p.1.isEmpty = false := by
      cases h : p.1 with
      | nil => exact absurd h hp.1
      | cons _ _ => rfl
    rw [List.map_cons, List.cons_append, mainLoop]
    simp only [he, Bool.false_eq_true, if_false, hp.2]
    rw [ih _ (fun x hx => hs x (List.mem_cons_of_mem _ hx))]
    simp

theorem mainLoop_block {F : Type} (ops : FloatOps F) (msgs : List (CANMessage F))
    (b : Block F) (rest : List Str)
    (hj : ∀ l ∈ b.junk, isHeader l = false) (hh : isHeader b.header = true)
    (hp : ParseMessage b.header = .ok (b.name, b.id))
    (hs : ∀ p ∈ b.sigs, p.1 ≠ [] ∧ ExtractRulesFromSingleSignal ops p.1 = .ok p.2) :
    mainLoop ops msgs none (b.lines ++ rest) = mainLoop ops (msgs ++ [b.message]) none rest := by
  unfold Block.lines
  rw [List.append_assoc, mainLoop_skip ops msgs _ _ hj, List.cons_append, mainLoop]
  simp only [hh, if_true, hp]
  rw [List.append_assoc, mainLoop_collect ops msgs _ _ _ hs, List.singleton_append, mainLoop]
  simp [Block.message]

theorem mainLoop_no_header {F : Type} (ops : FloatOps F) (msgs : List (CANMessage F))
    (junk : List Str) (hj : ∀ l ∈ junk, isHeader l = false) :
    mainLoop ops msgs none junk = .ok msgs := by
  have := mainLoop_skip ops msgs junk [] hj
  rw [List.append_nil] at this
  rw [this, mainLoop]

theorem mainLoop_blocks {F : Type} (ops : FloatOps F) (msgs : List (CANMessage F))
    (blocks : List (Block F)) (last : List Str)
    (hb : ∀ b ∈ blocks, (∀ l ∈ b.junk, isHeader l = false) ∧ isHeader b.header = true ∧
      ParseMessage b.header = .ok (b.name, b.id) ∧
      ∀ p ∈ b.sigs, p.1 ≠ [] ∧ ExtractRulesFromSingleSignal ops p.1 = .ok p.2)
    (hlast : ∀ l ∈ last, isHeader l = false) :
    mainLoop ops msgs none (blocksLines blocks ++ last)
      = .ok (msgs ++ blocks.map Block.message) := by
  induction blocks generalizing msgs with
  | nil => simpa [blocksLines] using mainLoop_no_header ops msgs last hlast
  | cons b bs ih =>
    obtain ⟨h1, h2, h3, h4⟩ := hb b (List.mem_cons_self _ _)
    rw [blocksLines, List.append_assoc, mainLoop_block ops msgs b _ h1 h2 h3 h4,
      ih _ (fun x hx => hb x (List.mem_cons_of_mem _ hx))]
    simp

/-- When the lines run out while the signals of a message are being collected, the
message is not pushed. -/
theorem mainLoop_unterminated {F : Type} (ops : FloatOps F) (msgs : List (CANMessage F))
    (m : CANMessage F) (sigs : List (Str × CANSignal F))
    (hs : ∀ p ∈ sigs, p.1 ≠ [] ∧ ExtractRulesFromSingleSignal ops p.1 = .ok p.2) :
    mainLoop ops msgs (some m) (sigs.map Prod.fst) = .ok msgs := by
  have := mainLoop_collect ops msgs m sigs [] hs
  rw [List.append_nil] at this
  rw [this, mainLoop]

end DBC

namespace DBC

/-- C6 (message parsing).  For an input `J0 ++ B1 ++ J1 ++ ... ++ Bn ++ Jn` in which no
line of a `Ji` begins with `"BO_ "` and each block is a header line beginning with
`"BO_ "`, then non-empty decodable signal lines, then one empty line, the line loop of
`main` produces exactly the messages of the blocks, in order: each with the name and id
`ParseMessage` gives for its header and with the signals decoded from its signal lines,
in order. -/
theorem parseLines_blocks {F : Type} (ops : FloatOps F) (blocks : List (Block F))
    (last : List Str)
    (hjunk : ∀ b ∈ blocks, ∀ l ∈ b.junk, startsWith l ['B', 'O', '_', ' '] = false)
    (hhead : ∀ b ∈ blocks, startsWith b.header ['B', 'O', '_', ' '] = true ∧
      ParseMessage b.header = .ok (b.name, b.id))
    (hsigs : ∀ b ∈ blocks, ∀ p ∈ b.sigs,
      p.1 ≠ [] ∧ ExtractRulesFromSingleSignal ops p.1 = .ok p.2)
    (hlast : ∀ l ∈ last, startsWith l ['B', 'O', '_', ' '] = false) :
    parseLines ops (blocksLines blocks ++ last) = .ok (blocks.map Block.message) := by
  have h := mainLoop_blocks ops [] blocks last
    (fun b hb => ⟨fun l hl => by rw [isHeader_eq_startsWith]; exact hjunk b hb l hl,
      by rw [isHeader_eq_startsWith]; exact (hhead b hb).1, (hhead b hb).2, hsigs b hb⟩)
    (fun l hl => by rw [isHeader_eq_startsWith]; exact hlast l hl)
  simpa [parseLines] using h

/-- Witness for C6: two blocks with lines before, between and after them.  (The decoded
signal name is what `ParseName` returns for the line.) -/
theorem parseLines_blocks_witness :
    parseLines exactOps
      [ "VERSION \"\"".toList,
        "BO_ 100 EngineData: 8 Vector__XXX".toList,
        " SG_ RPM: 0|16@1+ (0.25,0) \"rpm\"".toList,
        " SG_ Temp: 16|8@0- (1,-40) \"C\"".toList,
        [],
        "BU_: ECU".toList,
        [],
        "BO_ 200 Other:".toList,
        [],
        "CM_ end".toList ]
      = .ok
      [ { name := "EngineData".toList, id := 100,
          signals :=
            [ { encoding_type := .BIG_ENDIAN, name := "PM:".toList, unit := "rpm".toList,
                scale_factor := .fin (1 / 4), offset := .fin 0, start_bit := 0,
                bit_length := 16, is_signed := false },
              { encoding_type := .LITTLE_ENDIAN, name := "emp:".toList, unit := "C".toList,
                scale_factor := .fin 1, offset := .fin (-40), start_bit := 16,
                bit_length := 8, is_signed := true } ] },
        { name := "Other".toList, id := 200, signals := [] } ] :=
  parseLines_blocks exactOps
    [ { junk := ["VERSION \"\"".toList],
        header := "BO_ 100 EngineData: 8 Vector__XXX".toList,
        name := "EngineData".toList, id := 100,
        sigs :=
          [ (" SG_ RPM: 0|16@1+ (0.25,0) \"rpm\"".toList,
              { encoding_type := .BIG_ENDIAN, name := "PM:".toList, unit := "rpm".toList,
                scale_factor := .fin (1 / 4), offset := .fin 0, start_bit := 0,
                bit_length := 16, is_signed := false }),
            (" SG_ Temp: 16|8@0- (1,-40) \"C\"".toList,
              { encoding_type := .LITTLE_ENDIAN, name := "emp:".toList, unit := "C".toList,
                scale_factor := .fin 1, offset := .fin (-40), start_bit := 16,
                bit_length := 8, is_signed := true }) ] },
      { junk := ["BU_: ECU".toList, []],
        header := "BO_ 200 Other:".toList,
        name := "Other".toList, id := 200, sigs := [] } ]
    ["CM_ end".toList]
    (by decide) (by decide) (by decide!) (by decide)

/-- C7 (end-of-input flush), evaluation of the code.  For the input made of the header
`"BO_ 100 EngineData:"` and the signal line `" SG_ RPM: 0|16@1+ (0.25,0) \"rpm\""`, with
no empty line before the input ends, the line loop produces no message at all; with the
empty line added it produces the message.  The message is pushed only on the empty-line
branch of the inner loop. -/
theorem parseLines_unterminated_block :
    parseLines exactOps
      [ "BO_ 100 EngineData:".toList, " SG_ RPM: 0|16@1+ (0.25,0) \"rpm\"".toList ]
      = .ok [] ∧
    parseLines exactOps
      [ "BO_ 100 EngineData:".toList, " SG_ RPM: 0|16@1+ (0.25,0) \"rpm\"".toList, [] ]
      = .ok
      [ { name := "EngineData".toList, id := 100,
          signals :=
            [ { encoding_type := .BIG_ENDIAN, name := "PM:".toList, unit := "rpm".toList,
                scale_factor := .fin (1 / 4), offset := .fin 0, start_bit := 0,
                bit_length := 16, is_signed := false } ] } ] := by
  decide!

end DBC

namespace DBC

/-! ## Lemmas on `stof` and decimal numerals -/

theorem isNumCh_facts {c : Char} (h : isNumCh c = true) :
    isSpaceC c = false ∧ c ≠ '-' ∧ c ≠ '+' ∧ c ≠ 'i' ∧ c ≠ 'I' ∧ c ≠ 'n' ∧ c ≠ 'N' ∧
      c ≠ 'x' ∧ c ≠ 'X' ∧ c ≠ ',' := by
  simp only [isNumCh, Bool.or_eq_true, beq_iff_eq] at h
  rcases h with h | h
  · refine ⟨isSpaceC_of_isDigitC h, ?_, ?_, ?_, ?_, ?_, ?_, ?_, ?_, ?_⟩ <;>
      (intro e; subst e; revert h; decide)
  · subst h; decide

theorem scanFloat_decimal (neg : Bool) (ip : Str) (frac : Option Str) (c : Char) (rest : Str)
    (hip : ∀ x ∈ ip, isDigitC x = true) (hfp : ∀ x ∈ frac.getD [], isDigitC x = true)
    (hne : ip ++ frac.getD [] ≠ [])
    (hc : isDigitC c = false ∧ c ≠ '.' ∧ c ≠ 'e' ∧ c ≠ 'E' ∧ c ≠ 'x' ∧ c ≠ 'X') :
    scanFloat neg (ip ++ (fracText frac ++ c :: rest))
      = some (.dec neg (digitsVal 10 (ip ++ frac.getD [])) (-((frac.getD []).length : Int))) := by
  have hcd : ∀ x ∈ (c :: rest).head?, isDigitC x = false := by
    intro x hx; simp at hx; subst hx; exact hc.1
  have hexp : scanExp (fun c => c == 'e' || c == 'E') (c :: rest) = 0 := by
    simp [scanExp, hc.2.2.1, hc.2.2.2.1]
  -- the mantissa scan
  have hmant : scanMant isDigitC (ip ++ (fracText frac ++ c :: rest))
      = some (ip, frac.getD [], c :: rest) := by
    cases frac with
    | none =>
      have hne2 : ip ≠ [] := by simpa using hne
      have e1 : (ip ++ (fracText none ++ c :: rest)).takeWhile isDigitC = ip :=
        takeWhile_append_stop hip hcd
      have e2 : (ip ++ (fracText none ++ c :: rest)).dropWhile isDigitC = c :: rest :=
        dropWhile_append_stop hip hcd
      unfold scanMant
      simp only [e1, e2]
      split
      · next heq => cases heq; exact absurd rfl hc.2.1
      · cases ip with
        | nil => exact absurd rfl hne2
        | cons _ _ => simp
    | some f =>
      have hdot : ∀ x ∈ (fracText (some f) ++ c :: rest).head?, isDigitC x = false := by
        intro x hx; simp [fracText] at hx; subst hx; decide
      have e1 : (ip ++ (fracText (some f) ++ c :: rest)).takeWhile isDigitC = ip :=
        takeWhile_append_stop hip hdot
      have e2 : (ip ++ (fracText (some f) ++ c :: rest)).dropWhile isDigitC
          = '.' :: (f ++ c :: rest) :=
        dropWhile_append_stop hip hdot
      have e3 : (f ++ c :: rest).takeWhile isDigitC = f := takeWhile_append_stop hfp hcd
      have e4 : (f ++ c :: rest).dropWhile isDigitC = c :: rest := dropWhile_append_stop hfp hcd
      have hne2 : (ip.isEmpty && f.isEmpty) = false := by
        cases ip with
        | nil =>
          cases f with
          | nil => simp at hne
          | cons _ _ => rfl
        | cons _ _ => rfl
      unfold scanMant
      simp only [e1, e2, e3, e4, hne2, Option.getD_some]
      rfl
  -- the head of the input is a digit or the point
  obtain ⟨h0, t0, hu⟩ : ∃ h0 t0, ip ++ (fracText frac ++ c :: rest) = h0 :: t0 ∧ isNumCh h0 = true ∧
        ∀ x ∈ t0.head?, x ≠ 'x' ∧ x ≠ 'X' := by
    have hall : ∀ x ∈ ip ++ fracText frac ++ [c], x ≠ 'x' ∧ x ≠ 'X' := by
      intro x hx
      simp only [List.mem_append, List.mem_singleton] at hx
      rcases hx with (hx | hx) | hx
      · have := isNumCh_facts (c := x) (by simp [isNumCh, hip x hx])
        exact ⟨this.2.2.2.2.2.2.2.1, this.2.2.2.2.2.2.2.2.1⟩
      · cases frac with
        | none => simp [fracText] at hx
        | some f =>
          have : isNumCh x = true := by
            simp only [fracText, List.mem_cons] at hx
            rcases hx with hx | hx
            · subst hx; decide
            · simp [isNumCh, hfp x (by simpa using hx)]
          have := isNumCh_facts this
          exact ⟨this.2.2.2.2.2.2.2.1, this.2.2.2.2.2.2.2.2.1⟩
      · subst hx; exact ⟨hc.2.2.2.2.1, hc.2.2.2.2.2⟩
    cases ip with
    | nil =>
      cases frac with
      | none => simp at hne
      | some f =>
        refine ⟨'.', f ++ c :: rest, by simp [fracText], by decide, ?_⟩
        intro x hx
        apply hall
        cases f with
        | nil => simp at hx; subst hx; simp [fracText]
        | cons y f => simp at hx; subst hx; simp [fracText]
    | cons d ip =>
      refine ⟨d, _, rfl, by simp [isNumCh, hip d (List.mem_cons_self _ _)], ?_⟩
      intro x hx
      apply hall
      cases ip with
      | nil =>
        cases frac with
        | none => simp [fracText] at hx; subst hx; simp [fracText]
        | some f => simp [fracText] at hx; subst hx; simp [fracText]
      | cons y ip => simp at hx; subst hx; simp
  rw [hu.1] at hmant ⊢
  have hf := isNumCh_facts hu.2.1
  unfold scanFloat
  have hinf : startsWithCI (h0 :: t0) [('i', 'I'), ('n', 'N'), ('f', 'F')] = false := by
    simp [startsWithCI, hf.2.2.2.1, hf.2.2.2.2.1]
  have hnan : startsWithCI (h0 :: t0) [('n', 'N'), ('a', 'A'), ('n', 'N')] = false := by
    simp [startsWithCI, hf.2.2.2.2.2.1, hf.2.2.2.2.2.2.1]
  have hhex : scanHex neg (h0 :: t0) = none := by
    unfold scanHex
    split
    · next x r heq =>
      cases heq
      have := hu.2.2 x (by simp)
      simp [this.1, this.2]
    · rfl
  simp only [hinf, hnan, Bool.false_eq_true, if_false, hhex, hmant, hexp]
  simp

end DBC

namespace DBC

theorem decimal_wf_iff (a : Decimal) :
    a.wf = true ↔ (∀ x ∈ a.ip, isDigitC x = true) ∧ (∀ x ∈ a.fp, isDigitC x = true) ∧
      a.ip ++ a.fp ≠ [] := by
  simp only [Decimal.wf, Bool.and_eq_true, List.all_eq_true, Bool.not_eq_true',
    List.isEmpty_eq_false, and_assoc]

theorem decimal_head (ip : Str) (frac : Option Str) (tl : Str)
    (hip : ∀ x ∈ ip, isDigitC x = true) (hne : ip ++ frac.getD [] ≠ []) :
    ∃ h0 t0, ip ++ (fracText frac ++ tl) = h0 :: t0 ∧ isNumCh h0 = true := by
  cases ip with
  | nil =>
    cases frac with
    | none => simp at hne
    | some f => exact ⟨'.', f ++ tl, by simp [fracText], by decide⟩
  | cons d ip =>
    exact ⟨d, _, rfl, by simp [isNumCh, hip d (List.mem_cons_self _ _)]⟩

/-- `stof` applied to a decimal numeral followed by a character that cannot continue it
converts exactly that numeral. -/
theorem stof_decimal {F : Type} (ops : FloatOps F) (a : Decimal) (hwf : a.wf = true)
    (c : Char) (rest : Str)
    (hc : isDigitC c = false ∧ c ≠ '.' ∧ c ≠ 'e' ∧ c ≠ 'E' ∧ c ≠ 'x' ∧ c ≠ 'X') :
    stof ops (a.text ++ c :: rest) = ops.ofLit a.lit := by
  obtain ⟨hip, hfp, hne⟩ := (decimal_wf_iff a).mp hwf
  have hscan := scanFloat_decimal a.neg a.ip a.frac c rest hip hfp hne hc
  obtain ⟨h0, t0, hu, hnum⟩ := decimal_head a.ip a.frac (c :: rest) hip hne
  have hf := isNumCh_facts hnum
  have hsign : takeSign ((a.text ++ c :: rest).dropWhile isSpaceC)
      = (a.neg, a.ip ++ (fracText a.frac ++ c :: rest)) := by
    unfold Decimal.text
    cases hn : a.neg with
    | true =>
      have : isSpaceC '-' = false := by decide
      simp [List.dropWhile, this, takeSign]
    | false =>
      simp only [Bool.false_eq_true, if_false, List.nil_append, List.append_assoc]
      rw [hu]
      simp only [List.dropWhile, hf.1]
      exact takeSign_cons_other _ hf.2.1 hf.2.2.1
  unfold stof
  simp only [hsign, hscan]
  rfl

theorem decimal_text_no_comma (a : Decimal) (hwf : a.wf = true) : ',' ∉ a.text := by
  obtain ⟨hip, hfp, _⟩ := (decimal_wf_iff a).mp hwf
  have h1 : ',' ∉ a.ip := not_mem_of_all_digits hip (by decide)
  have h2 : ',' ∉ fracText a.frac := by
    cases hf : a.frac with
    | none => simp [fracText]
    | some f =>
      have : ',' ∉ f := not_mem_of_all_digits (by simpa [Decimal.fp, hf] using hfp) (by decide)
      simp [fracText, this]
  unfold Decimal.text
  cases a.neg <;> simp [h1, h2]

/-- The two texts `ParseScaleOffset` hands to `stof` for a token `(a,b)`. -/
theorem parseScaleOffset_texts (a b : Str) (hcomma : ',' ∉ a) :
    substr ('(' :: (a ++ ',' :: (b ++ [')']))) 1
        (find ('(' :: (a ++ ',' :: (b ++ [')']))) [','] 0)
      = .ok (a ++ [',']) ∧
    substr ('(' :: (a ++ ',' :: (b ++ [')'])))
        (succPos (find ('(' :: (a ++ ',' :: (b ++ [')']))) [','] 0))
        (if 2 ≤ ('(' :: (a ++ ',' :: (b ++ [')']))).length
          then some (('(' :: (a ++ ',' :: (b ++ [')']))).length - 2) else none)
      = .ok (b ++ [')']) := by
  have hf : find ('(' :: (a ++ ',' :: (b ++ [')']))) [','] 0
      = some (a.length + 1) := by
    have e : '(' :: (a ++ ',' :: (b ++ [')']))
        = ('(' :: a) ++ ',' :: (b ++ [')']) := by simp
    rw [e, find_single_some (by simp [hcomma])]
    simp
  rw [hf]
  constructor
  · simp only [substr, List.length_cons, List.drop_succ_cons, List.drop_zero]
    rw [if_pos (by omega), take_append_cons_of_lt _ _ (by omega)]
    simp
  · have hd : ('(' :: (a ++ ',' :: (b ++ [')']))).drop (a.length + 1 + 1)
        = b ++ [')'] := by
      have e : '(' :: (a ++ ',' :: (b ++ [')']))
          = ('(' :: a ++ [',']) ++ (b ++ [')']) := by simp
      rw [e]
      exact drop_eq_of_length _ (by simp)
    simp only [succPos, substr, hd]
    rw [if_pos (by simp), if_pos (by simp; omega)]
    simp only []
    rw [List.take_of_length_le (by simp)]

end DBC

namespace DBC


end DBC

namespace DBC

/-- C9 (signal invariant), counterexample.  The line `" SG_ Wide: 60|16@1+"` decodes
without error to a signal with `start_bit = 60` and `bit_length = 16`, so
`start_bit + bit_length = 76 > 64`; the line `" SG_ Bare: x"`, which has no bit-layout
token, decodes to `start_bit = 0`, `bit_length = 0`.  Hence not every decoded signal
satisfies `bit_length ≥ 1` and `start_bit + bit_length ≤ 64`. -/
theorem extract_invariant_fails :
    (ExtractRulesFromSingleSignal exactOps " SG_ Wide: 60|16@1+".toList).map
        (fun sig => (sig.start_bit, sig.bit_length)) = .ok (60, 16) ∧
    (ExtractRulesFromSingleSignal exactOps " SG_ Bare: x".toList).map
        (fun sig => (sig.start_bit, sig.bit_length)) = .ok (0, 0) ∧
    ¬ (∀ (line : Str) (sig : CANSignal XReal),
        ExtractRulesFromSingleSignal exactOps line = .ok sig →
        1 ≤ sig.bit_length ∧ sig.start_bit + sig.bit_length ≤ 64) := by
  refine ⟨by decide, by decide, ?_⟩
  intro h
  have h2 := h " SG_ Wide: 60|16@1+".toList
    { encoding_type := .BIG_ENDIAN, name := "ide:".toList, unit := [],
      scale_factor := .fin 0, offset := .fin 0, start_bit := 60, bit_length := 16,
      is_signed := false } (by decide!)
  exact absurd h2.2 (by decide)

/-- C9 as amended.  `ExtractRulesFromSingleSignal` does not validate the bit layout: a
decoded signal carries the numbers written in the last bit-layout token of its line, so
it satisfies `bit_length ≥ 1` and `start_bit + bit_length ≤ 64` exactly when the
numerals `s`, `l` of that token satisfy `1 ≤ l` and `s + l ≤ 64`; and when no word of
the line contains `'@'` the signal has `start_bit = 0` and `bit_length = 0`. -/
theorem extract_invariant_iff_token {F : Type} (ops : FloatOps F) (line : Str)
    (sig : CANSignal F) (hdec : ExtractRulesFromSingleSignal ops line = .ok sig) :
    (∀ (pre post : List Str) (s l : Str) (e sg : Char),
        s ≠ [] → (∀ c ∈ s, isDigitC c = true) → digitsVal 10 s ≤ 2147483647 →
        l ≠ [] → (∀ c ∈ l, isDigitC c = true) → digitsVal 10 l ≤ 2147483647 →
        SplitIntoWords (TrimString line) = pre ++ (s ++ '|' :: (l ++ ['@', e, sg])) :: post →
        (∀ w ∈ post, '@' ∉ w) →
        ((1 ≤ sig.bit_length ∧ sig.start_bit + sig.bit_length ≤ 64) ↔
          (1 ≤ digitsVal 10 l ∧ digitsVal 10 s + digitsVal 10 l ≤ 64))) ∧
    ((∀ w ∈ SplitIntoWords (TrimString line), '@' ∉ w) →
        sig.start_bit = 0 ∧ sig.bit_length = 0) := by
  constructor
  · intro pre post s l e sg hs hsd hsfit hl hld hlfit hsplit hpost
    have h := parseLenghtStartBit_shape s l [e, sg] hs hsd hsfit hl hld hlfit
    have h2 := extract_layout_of_last ops line pre post _ sig _ (by simp) h hsplit hpost hdec
    rw [h2.1, h2.2.1]
    simp only []
    constructor
    · rintro ⟨h3, h4⟩; exact ⟨by exact_mod_cast h3, by exact_mod_cast h4⟩
    · rintro ⟨h3, h4⟩; exact ⟨by exact_mod_cast h3, by exact_mod_cast h4⟩
  · intro hno
    unfold ExtractRulesFromSingleSignal at hdec
    simp only [] at hdec
    split at hdec
    · cases hdec
    · have h3 := applyWords_layout ops _ _ sig hno hdec
      exact ⟨h3.1, h3.2.1⟩

/-- Witness for C9 as amended: the line `" SG_ RPM: 0|16@1+ (0.25,0) \"rpm\""`, whose
token `0|16@1+` is within range. -/
theorem extract_invariant_iff_token_witness :
    (1 ≤ (16 : Int) ∧ (0 : Int) + 16 ≤ 64) ↔
      (1 ≤ digitsVal 10 ['1', '6'] ∧ digitsVal 10 ['0'] + digitsVal 10 ['1', '6'] ≤ 64) :=
  (extract_invariant_iff_token exactOps " SG_ RPM: 0|16@1+ (0.25,0) \"rpm\"".toList
    { encoding_type := .BIG_ENDIAN, name := "PM:".toList, unit := "rpm".toList,
      scale_factor := .fin (1 / 4), offset := .fin 0, start_bit := 0, bit_length := 16,
      is_signed := false } (by decide!)).1
    [['S', 'G', '_'], ['R', 'P', 'M', ':']]
    [['(', '0', '.', '2', '5', ',', '0', ')'], ['"', 'r', 'p', 'm', '"']]
    ['0'] ['1', '6'] '1' '+'
    (by decide) (by decide) (by decide) (by decide) (by decide) (by decide) (by decide)
    (by decide)

end DBC

namespace DBC

/-! ## Lemmas on numerals that are missing or followed by other characters -/

theorem isStopCh_facts {c : Char} (h : isStopCh c = true) :
    isSpaceC c = false ∧ isDigitC c = false ∧ c ≠ '-' ∧ c ≠ '+' ∧ c ≠ '.' ∧
      c ≠ 'i' ∧ c ≠ 'I' ∧ c ≠ 'n' ∧ c ≠ 'N' ∧ c ≠ 'a' ∧ c ≠ 'A' ∧ c ≠ 'f' ∧ c ≠ 'F' ∧
      c ≠ 'e' ∧ c ≠ 'E' ∧ c ≠ 'x' ∧ c ≠ 'X' := by
  simp only [isStopCh, Bool.not_eq_true', Bool.or_eq_false_iff, List.contains_eq_any_beq,
    List.any_cons, List.any_nil, Bool.or_false, beq_eq_false_iff_ne, ne_eq] at h
  obtain ⟨⟨h1, h2⟩, h3⟩ := h
  refine ⟨h1, h2, ?_⟩
  simp only [ne_eq]
  tauto

theorem stoi_no_head {s : Str} (h : beginsWithInt s = false) :
    stoi s = .error .invalid_argument := by
  unfold beginsWithInt at h
  have e : (takeSign (s.dropWhile isSpaceC)).2.takeWhile isDigitC = [] := by
    cases ht : (takeSign (s.dropWhile isSpaceC)).2 with
    | nil => rfl
    | cons d t =>
      rw [ht] at h
      simp only [headIs] at h
      simp [List.takeWhile, h]
  unfold stoi
  simp [e]

theorem takeSign_minus (r : Str) : takeSign ('-' :: r) = (true, r) := rfl

theorem takeSign_plus (r : Str) : takeSign ('+' :: r) = (false, r) := rfl

theorem takeSign_nil : takeSign [] = (false, []) := rfl

/-- What is left after white space and sign, when a stop character follows the text:
either the text had nothing left and the rest starts at the stop character, or the
stop character is appended to what the text had left. -/
theorem takeSign_append_stop (b : Str) (c : Char) (r : Str) (hc : isStopCh c = true) :
    (takeSign ((b ++ c :: r).dropWhile isSpaceC)).2
      = (takeSign (b.dropWhile isSpaceC)).2 ++ c :: r := by
  have hf := isStopCh_facts hc
  induction b with
  | nil =>
    simp only [List.nil_append, List.dropWhile, hf.1]
    rw [takeSign_cons_other _ hf.2.2.1 hf.2.2.2.1, takeSign_nil]
    rfl
  | cons x b ih =>
    cases hx : isSpaceC x with
    | true => simpa [List.dropWhile, hx] using ih
    | false =>
      simp only [List.cons_append, List.dropWhile, hx]
      by_cases h1 : x = '-'
      · subst h1; rfl
      · by_cases h2 : x = '+'
        · subst h2; rfl
        · rw [takeSign_cons_other _ h1 h2, takeSign_cons_other _ h1 h2]
          rfl

theorem beginsWithInt_append_stop (b : Str) (c : Char) (r : Str) (hc : isStopCh c = true)
    (h : beginsWithInt b = false) : beginsWithInt (b ++ c :: r) = false := by
  unfold beginsWithInt at h ⊢
  rw [takeSign_append_stop b c r hc]
  cases ht : (takeSign (b.dropWhile isSpaceC)).2 with
  | nil => simpa [headIs] using (isStopCh_facts hc).2.1
  | cons d t => rw [ht] at h; simpa [headIs] using h

theorem numberHead_append_stop (u : Str) (c : Char) (r : Str) (hc : isStopCh c = true)
    (h : numberHead u = false) : numberHead (u ++ c :: r) = false := by
  have hf := isStopCh_facts hc
  rcases u with _ | ⟨x, _ | ⟨y, _ | ⟨z, t⟩⟩⟩
  · simp [numberHead, headIs, startsWithCI, hf]
  · simp only [numberHead, headIs, startsWithCI, List.tail, Bool.or_eq_false_iff,
      Bool.and_eq_false_iff] at h
    simp [numberHead, headIs, startsWithCI, hf, h.1.1.1]
  · simp only [numberHead, headIs, startsWithCI, List.tail, Bool.or_eq_false_iff] at h
    simp [numberHead, headIs, startsWithCI, hf, h.1.1.1, h.1.1.2]
  · simpa [numberHead, headIs, startsWithCI] using h

theorem beginsWithNumber_append_stop (b : Str) (c : Char) (r : Str) (hc : isStopCh c = true)
    (h : beginsWithNumber b = false) : beginsWithNumber (b ++ c :: r) = false := by
  unfold beginsWithNumber at h ⊢
  rw [takeSign_append_stop b c r hc]
  exact numberHead_append_stop _ c r hc h

theorem scanFloat_no_head (neg : Bool) {u : Str} (h : numberHead u = false) :
    scanFloat neg u = none := by
  simp only [numberHead, Bool.or_eq_false_iff] at h
  obtain ⟨⟨⟨h1, h2⟩, h3⟩, h4⟩ := h
  have hhex : scanHex neg u = none := by
    unfold scanHex
    split
    · simp only [headIs] at h1
      exact absurd h1 (by decide)
    · rfl
  have hmant : scanMant isDigitC u = none := by
    cases u with
    | nil => simp [scanMant]
    | cons d t =>
      simp only [headIs] at h1
      have e1 : (d :: t).takeWhile isDigitC = [] := by simp [List.takeWhile, h1]
      have e2 : (d :: t).dropWhile isDigitC = d :: t := by simp [List.dropWhile, h1]
      unfold scanMant
      simp only [e1, e2]
      split
      · rename_i r2 heq
        cases heq
        cases t with
        | nil => simp
        | cons e r3 =>
          simp only [headIs, beq_self_eq_true, List.tail, Bool.true_and] at h2
          simp [List.takeWhile, h2]
      · simp
  unfold scanFloat
  simp [h3, h4, hhex, hmant]

theorem stof_no_head {F : Type} (ops : FloatOps F) {s : Str}
    (h : beginsWithNumber s = false) : stof ops s = .error .invalid_argument := by
  unfold beginsWithNumber at h
  unfold stof
  simp only [scanFloat_no_head _ h]

end DBC

namespace DBC

/-- `ParseLenghtStartBit` on a token `a|b@rest`: the start bit is read from `a`, the
length from `b` followed by `'@'` and part of the rest. -/
theorem parseLenghtStartBit_parts (a b rest : Str)
    (hbar : '|' ∉ a) (hata : '@' ∉ a) (hatb : '@' ∉ b) :
    ParseLenghtStartBit (a ++ '|' :: (b ++ '@' :: rest))
      = (match stoi a with
        | .error e => .error e
        | .ok start_bit =>
          match stoi (b ++ '@' :: rest.take a.length) with
          | .error e => .error e
          | .ok length =>
            .ok (length, start_bit, decide ('-' ∈ a ++ '|' :: (b ++ '@' :: rest)),
              if find (a ++ '|' :: (b ++ '@' :: rest)) ['@', '0'] 0 = none
              then Encoding.BIG_ENDIAN else Encoding.LITTLE_ENDIAN)) := by
  have hf1 : find (a ++ '|' :: (b ++ '@' :: rest)) ['|'] 0 = some a.length :=
    find_single_some hbar _
  have hf2 : find (a ++ '|' :: (b ++ '@' :: rest)) ['@'] 0 = some (a.length + 1 + b.length) := by
    have e : a ++ '|' :: (b ++ '@' :: rest) = (a ++ '|' :: b) ++ '@' :: rest := by simp
    rw [e, find_single_some (by simp [hata, hatb])]
    simp; omega
  have hs1 : substr (a ++ '|' :: (b ++ '@' :: rest)) 0 (some a.length) = .ok a := by
    simp [substr]
  have hs2 : substr (a ++ '|' :: (b ++ '@' :: rest)) (a.length + 1) (some (a.length + 1 + b.length))
      = .ok (b ++ '@' :: rest.take a.length) := by
    have e : (a ++ '|' :: (b ++ '@' :: rest)).drop (a.length + 1) = b ++ '@' :: rest := by
      have : a ++ '|' :: (b ++ '@' :: rest) = (a ++ ['|']) ++ (b ++ '@' :: rest) := by simp
      rw [this]
      exact drop_eq_of_length _ (by simp)
    simp only [substr, e]
    rw [if_pos (by simp)]
    rw [take_append_cons_of_lt _ _ (by omega)]
    have : a.length + 1 + b.length - b.length - 1 = a.length := by omega
    rw [this]
  unfold ParseLenghtStartBit
  rw [hf1, hf2]
  simp only [succPos, hs1, hs2, find_single_isSome]

/-- `ParseScaleOffset` on a token `(a,b)`: the scale is read from `a` followed by `','`,
the offset from `b` followed by `')'`. -/
theorem parseScaleOffset_parts {F : Type} (ops : FloatOps F) (a b : Str) (hcomma : ',' ∉ a) :
    ParseScaleOffset ops ('(' :: (a ++ ',' :: (b ++ [')'])))
      = (match stof ops (a ++ [',']) with
        | .error e => .error e
        | .ok scale =>
          match stof ops (b ++ [')']) with
          | .error e => .error e
          | .ok offset => .ok (scale, offset)) := by
  obtain ⟨h1, h2⟩ := parseScaleOffset_texts a b hcomma
  unfold ParseScaleOffset
  simp only [h1, h2]

theorem applyWords_error {F : Type} (ops : FloatOps F) (pre post : List Str) (tok : Str)
    (h : ∀ r : CANSignal F, ∃ e, applyWord ops r tok = .error e) (r : CANSignal F) :
    ∃ e, applyWords ops r (pre ++ tok :: post) = .error e := by
  induction pre generalizing r with
  | nil =>
    obtain ⟨e, he⟩ := h r
    exact ⟨e, by simp [applyWords, he]⟩
  | cons w pre ih =>
    rw [List.cons_append, applyWords]
    cases hw : applyWord ops r w with
    | error e => exact ⟨e, rfl⟩
    | ok r1 => exact ih r1

theorem extract_error_of_word {F : Type} (ops : FloatOps F) (line : Str)
    (pre post : List Str) (tok : Str)
    (hsplit : SplitIntoWords (TrimString line) = pre ++ tok :: post)
    (h : ∀ r : CANSignal F, ∃ e, applyWord ops r tok = .error e) :
    ∃ e, ExtractRulesFromSingleSignal ops line = .error e := by
  unfold ExtractRulesFromSingleSignal
  simp only [hsplit]
  cases ParseName (TrimString line) with
  | error e => exact ⟨e, rfl⟩
  | ok name => exact applyWords_error ops pre post tok h _

end DBC

namespace DBC

theorem stof_decimal_junk {F : Type} (ops : FloatOps F) (a : Decimal) (hwf : a.wf = true)
    (g : Str) (hg : ∀ c ∈ g.head?, isStopCh c = true) (c : Char) (hc : isStopCh c = true) :
    stof ops ((a.text ++ g) ++ [c]) = ops.ofLit a.lit := by
  have key : ∀ d : Char, isStopCh d = true →
      isDigitC d = false ∧ d ≠ '.' ∧ d ≠ 'e' ∧ d ≠ 'E' ∧ d ≠ 'x' ∧ d ≠ 'X' := by
    intro d hd
    have := isStopCh_facts hd
    exact ⟨this.2.1, this.2.2.2.2.1, this.2.2.2.2.2.2.2.2.2.2.2.2.2.1,
      this.2.2.2.2.2.2.2.2.2.2.2.2.2.2.1, this.2.2.2.2.2.2.2.2.2.2.2.2.2.2.2.1,
      this.2.2.2.2.2.2.2.2.2.2.2.2.2.2.2.2⟩
  cases g with
  | nil => simpa using stof_decimal ops a hwf c [] (key c hc)
  | cons d g =>
    have := stof_decimal ops a hwf d (g ++ [c]) (key d (hg d (by simp)))
    simpa using this

/-- C10 (format errors), counterexample.  In the token `1x|8@1+` the start substring
`1x` is not a well-formed decimal integer, yet `ParseLenghtStartBit` returns start bit 1
and length 8; in the token `(1x,2)` the scale part `1x` is not a number, yet
`ParseScaleOffset` returns scale 1 and offset 2; and the line
`" SG_ A: 1x|8@1+ (1x,2)"` decodes without error. -/
theorem malformed_numeral_accepted :
    isDecimalInt ['1', 'x'] = false ∧
    ParseLenghtStartBit "1x|8@1+".toList = .ok (8, 1, false, Encoding.BIG_ENDIAN) ∧
    ParseScaleOffset exactOps "(1x,2)".toList = .ok (.fin 1, .fin 2) ∧
    (ExtractRulesFromSingleSignal exactOps " SG_ A: 1x|8@1+ (1x,2)".toList).map
        (fun sig => (sig.start_bit, sig.bit_length, sig.scale_factor, sig.offset))
      = .ok (1, 8, .fin 1, .fin 2) := by
  decide!

/-- C10 as amended.  Parsing fails with an error whenever a numeric substring does not
begin with a numeral: for a bit-layout token `a|b@...` when `a` or `b` does not begin
(after optional white space and sign) with a digit, for a scale/offset token `(a,b)`
when `a` or `b` does not begin with a number, and hence for every line that has such a
token among its words.  A substring that begins with a numeral and has other characters
after it is accepted and read as that leading numeral. -/
theorem parse_fails_without_leading_numeral {F : Type} (ops : FloatOps F) :
    (∀ a b rest : Str, '|' ∉ a → '@' ∉ a → '@' ∉ b →
        (beginsWithInt a = false ∨ beginsWithInt b = false) →
        (∃ e, ParseLenghtStartBit (a ++ '|' :: (b ++ '@' :: rest)) = .error e) ∧
        ∀ (line : Str) (pre post : List Str),
          SplitIntoWords (TrimString line) = pre ++ (a ++ '|' :: (b ++ '@' :: rest)) :: post →
          ∃ e, ExtractRulesFromSingleSignal ops line = .error e) ∧
    (∀ a b : Str, ',' ∉ a → '@' ∉ a → '@' ∉ b →
        (beginsWithNumber a = false ∨ beginsWithNumber b = false) →
        (∃ e, ParseScaleOffset ops ('(' :: (a ++ ',' :: (b ++ [')']))) = .error e) ∧
        ∀ (line : Str) (pre post : List Str),
          SplitIntoWords (TrimString line) = pre ++ ('(' :: (a ++ ',' :: (b ++ [')']))) :: post →
          ∃ e, ExtractRulesFromSingleSignal ops line = .error e) ∧
    (∀ s l g1 g2 rest : Str,
        s ≠ [] → (∀ c ∈ s, isDigitC c = true) → digitsVal 10 s ≤ 2147483647 →
        l ≠ [] → (∀ c ∈ l, isDigitC c = true) → digitsVal 10 l ≤ 2147483647 →
        '|' ∉ g1 → '@' ∉ g1 → '@' ∉ g2 →
        (∀ c ∈ g1.head?, isDigitC c = false) → (∀ c ∈ g2.head?, isDigitC c = false) →
        ∃ sg enc, ParseLenghtStartBit ((s ++ g1) ++ '|' :: ((l ++ g2) ++ '@' :: rest))
          = .ok ((digitsVal 10 l : Int), (digitsVal 10 s : Int), sg, enc)) ∧
    (∀ (a b : Decimal) (g1 g2 : Str) (x y : F), a.wf = true → b.wf = true →
        ',' ∉ g1 → (∀ c ∈ g1.head?, isStopCh c = true) → (∀ c ∈ g2.head?, isStopCh c = true) →
        ops.ofLit a.lit = .ok x → ops.ofLit b.lit = .ok y →
        ParseScaleOffset ops ('(' :: ((a.text ++ g1) ++ ',' :: ((b.text ++ g2) ++ [')'])))
          = .ok (x, y)) := by
  refine ⟨?_, ?_, ?_, ?_⟩
  · intro a b rest hbar hata hatb hbad
    have herr : ∃ e, ParseLenghtStartBit (a ++ '|' :: (b ++ '@' :: rest)) = .error e := by
      rw [parseLenghtStartBit_parts a b rest hbar hata hatb]
      rcases hbad with ha | hb
      · rw [stoi_no_head ha]; exact ⟨_, rfl⟩
      · cases stoi a with
        | error e => exact ⟨e, rfl⟩
        | ok v =>
          rw [stoi_no_head (beginsWithInt_append_stop b '@' _ (by decide) hb)]
          exact ⟨_, rfl⟩
    refine ⟨herr, fun line pre post hsplit => ?_⟩
    apply extract_error_of_word ops line pre post _ hsplit
    intro r
    obtain ⟨e, he⟩ := herr
    exact ⟨e, by simp [applyWord, find_single_isSome, he]⟩
  · intro a b hcomma hata hatb hbad
    have herr : ∃ e, ParseScaleOffset ops ('(' :: (a ++ ',' :: (b ++ [')']))) = .error e := by
      rw [parseScaleOffset_parts ops a b hcomma]
      rcases hbad with ha | hb
      · rw [stof_no_head ops (beginsWithNumber_append_stop a ',' [] (by decide) ha)]
        exact ⟨_, rfl⟩
      · cases stof ops (a ++ [',']) with
        | error e => exact ⟨e, rfl⟩
        | ok v =>
          rw [stof_no_head ops (beginsWithNumber_append_stop b ')' [] (by decide) hb)]
          exact ⟨_, rfl⟩
    refine ⟨herr, fun line pre post hsplit => ?_⟩
    apply extract_error_of_word ops line pre post _ hsplit
    intro r
    obtain ⟨e, he⟩ := herr
    exact ⟨e, by simp [applyWord, find_single_isSome, he, hata, hatb]⟩
  · intro s l g1 g2 rest hs hsd hsfit hl hld hlfit hbar hat1 hat2 hg1 hg2
    have hbars : '|' ∉ s := not_mem_of_all_digits hsd (by decide)
    have hats : '@' ∉ s := not_mem_of_all_digits hsd (by decide)
    have hatl : '@' ∉ l := not_mem_of_all_digits hld (by decide)
    rw [parseLenghtStartBit_parts (s ++ g1) (l ++ g2) rest (by simp [hbars, hbar])
      (by simp [hats, hat1]) (by simp [hatl, hat2])]
    rw [stoi_digits hs hsd hg1 hsfit]
    have h2 : stoi ((l ++ g2) ++ '@' :: rest.take (s ++ g1).length)
        = .ok (digitsVal 10 l : Int) := by
      rw [List.append_assoc]
      apply stoi_digits hl hld _ hlfit
      intro c hc
      cases g2 with
      | nil => simp at hc; subst hc; decide
      | cons d g => exact hg2 c (by simpa using hc)
    simp only [h2]
    exact ⟨_, _, rfl⟩
  · intro a b g1 g2 x y ha hb hcomma hg1 hg2 hx hy
    rw [parseScaleOffset_parts ops (a.text ++ g1) (b.text ++ g2)
      (by simp [decimal_text_no_comma a ha, hcomma])]
    rw [stof_decimal_junk ops a ha g1 hg1 ',' (by decide),
      stof_decimal_junk ops b hb g2 hg2 ')' (by decide), hx, hy]

/-- Witness for C10 as amended: the token `x1|8@1+`, whose start substring does not
begin with a digit, is rejected. -/
theorem parse_fails_without_leading_numeral_witness :
    ∃ e, ParseLenghtStartBit "x1|8@1+".toList = .error e :=
  ((parse_fails_without_leading_numeral exactOps).1 ['x', '1'] ['8'] ['1', '+']
    (by decide) (by decide) (by decide) (Or.inl (by decide))).1

end DBC

namespace DBC

/-! ## Claims on the value extractor: signedness, byte order, zero width -/

/-- C11 (signedness and byte order do not influence extraction).  For every payload and
every two lines whose decoded signals agree on `start_bit`, `bit_length`, scale and
offset, `ComputeValue` gives the same result, whatever `is_signed` and the byte order
are.  No two's-complement reinterpretation is done: an 8-bit field declared signed
(`'-'`) that holds `0xFF`, with scale 1 and offset 0, yields 255, not -1. -/
theorem computeValue_ignores_sign_and_order :
    (∀ (F : Type) (ops : FloatOps F) (raw : Nat) (line1 line2 : Str)
        (sig1 sig2 : CANSignal F),
        ExtractRulesFromSingleSignal ops line1 = .ok sig1 →
        ExtractRulesFromSingleSignal ops line2 = .ok sig2 →
        sig1.start_bit = sig2.start_bit → sig1.bit_length = sig2.bit_length →
        sig1.scale_factor = sig2.scale_factor → sig1.offset = sig2.offset →
        ComputeValue ops raw line1 = ComputeValue ops raw line2) ∧
    (ExtractRulesFromSingleSignal exactOps " SG_ X: 0|8@1- (1,0)".toList).map
        (fun sig => sig.is_signed) = .ok true ∧
    ComputeValue exactOps 0xFF " SG_ X: 0|8@1- (1,0)".toList = .ok (.fin 255) ∧
    ComputeValue exactOps 0xFF " SG_ X: 0|8@1- (1,0)".toList ≠ .ok (.fin (-1)) := by
  refine ⟨?_, by decide, by decide!, by decide!⟩
  intro F ops raw line1 line2 sig1 sig2 h1 h2 hs hl hsc hof
  unfold ComputeValue
  rw [h1, h2]
  simp only [hs, hl, hsc, hof]

/-- Witness for C11: the same field declared with `@1-` and with `@0+` gives the same
value for the payload `0x80FF`. -/
theorem computeValue_ignores_sign_and_order_witness :
    ComputeValue exactOps 0x80FF " SG_ X: 8|8@1- (1,0)".toList
      = ComputeValue exactOps 0x80FF " SG_ X: 8|8@0+ (1,0)".toList :=
  computeValue_ignores_sign_and_order.1 XReal exactOps 0x80FF
    " SG_ X: 8|8@1- (1,0)".toList " SG_ X: 8|8@0+ (1,0)".toList
    { encoding_type := .BIG_ENDIAN, name := [':'], unit := [], scale_factor := .fin 1,
      offset := .fin 0, start_bit := 8, bit_length := 8, is_signed := true }
    { encoding_type := .LITTLE_ENDIAN, name := [':'], unit := [], scale_factor := .fin 1,
      offset := .fin 0, start_bit := 8, bit_length := 8, is_signed := false }
    (by decide!) (by decide!) (by decide) (by decide) (by decide!) (by decide!)

/-- C17 (zero-width field), counterexample.  The line `" SG_ X: 0|0@1+ (inf,1)"`
decodes to `bit_length = 0` and offset 1, but `ComputeValue` computes
`0 * inf + 1`, which is NaN and not the offset; and for the line
`" SG_ X: 64|0@1+ (2,1)"`, also of `bit_length = 0`, the shift `>> 64` of a 64-bit value
is undefined.  So `ComputeValue` does not return the offset for every line that decodes
to `bit_length = 0`. -/
theorem computeValue_zero_width_fails :
    (ExtractRulesFromSingleSignal exactOps " SG_ X: 0|0@1+ (inf,1)".toList).map
        (fun sig => (sig.bit_length, sig.scale_factor, sig.offset))
      = .ok (0, .inf false, .fin 1) ∧
    ComputeValue exactOps 0xFF " SG_ X: 0|0@1+ (inf,1)".toList = .ok .nan ∧
    (ExtractRulesFromSingleSignal exactOps " SG_ X: 64|0@1+ (2,1)".toList).map
        (fun sig => (sig.start_bit, sig.bit_length)) = .ok (64, 0) ∧
    ComputeValue exactOps 0xFF " SG_ X: 64|0@1+ (2,1)".toList = .error .undefined ∧
    ¬ (∀ (raw : Nat) (line : Str) (sig : CANSignal XReal),
        ExtractRulesFromSingleSignal exactOps line = .ok sig → sig.bit_length = 0 →
        ComputeValue exactOps raw line = .ok sig.offset) := by
  refine ⟨by decide!, by decide!, by decide!, by decide!, ?_⟩
  intro h
  have h2 := h 0xFF " SG_ X: 0|0@1+ (inf,1)".toList
    { encoding_type := .BIG_ENDIAN, name := [':'], unit := [], scale_factor := .inf false,
      offset := .fin 1, start_bit := 0, bit_length := 0, is_signed := false }
    (by decide!) (by decide)
  exact absurd h2 (by decide!)

/-- C17 as amended.  For every payload and every line whose decoded `bit_length` is 0
and whose decoded `start_bit` lies in `0..63` (in particular every line none of whose
words contains `'@'`, where both are 0), `ComputeValue` raises no error and returns
`0 * scale + offset` in the program's arithmetic, independent of the payload and of
`start_bit`; in exact arithmetic this is the offset when scale and offset are finite. -/
theorem computeValue_zero_width {F : Type} (ops : FloatOps F) (raw : Nat) (line : Str)
    (sig : CANSignal F) (hdec : ExtractRulesFromSingleSignal ops line = .ok sig) :
    (sig.bit_length = 0 → 0 ≤ sig.start_bit → sig.start_bit < 64 →
        ComputeValue ops raw line
          = .ok (ops.add (ops.mul (ops.ofUInt64 0) sig.scale_factor) sig.offset)) ∧
    ((∀ w ∈ SplitIntoWords (TrimString line), '@' ∉ w) →
        ComputeValue ops raw line
          = .ok (ops.add (ops.mul (ops.ofUInt64 0) sig.scale_factor) sig.offset)) ∧
    (∀ q o : ℚ, exactOps.add (exactOps.mul (exactOps.ofUInt64 0) (.fin q)) (.fin o)
        = .fin o) := by
  have key : sig.bit_length = 0 → 0 ≤ sig.start_bit → sig.start_bit < 64 →
      ComputeValue ops raw line
        = .ok (ops.add (ops.mul (ops.ofUInt64 0) sig.scale_factor) sig.offset) := by
    intro hl h0 h64
    unfold ComputeValue
    rw [hdec]
    have hm : maskedValue raw sig.start_bit sig.bit_length = .ok 0 := by
      simp [maskedValue, buildMask, maskLoop, hl, h0, h64]
    simp only [hm]
  refine ⟨key, ?_, ?_⟩
  · intro hno
    have h3 : sig.start_bit = 0 ∧ sig.bit_length = 0 := by
      unfold ExtractRulesFromSingleSignal at hdec
      simp only [] at hdec
      split at hdec
      · cases hdec
      · have h3 := applyWords_layout ops _ _ sig hno hdec
        exact ⟨h3.1, h3.2.1⟩
    exact key h3.2 (by rw [h3.1]) (by rw [h3.1]; decide)
  · intro q o
    simp [exactOps, XReal.add, XReal.mul]

/-- Witness for C17 as amended: the line `" SG_ X: y (2,1)"` has no bit-layout token
and gives the offset 1 for the payload `0xFF`. -/
theorem computeValue_zero_width_witness :
    ComputeValue exactOps 0xFF " SG_ X: y (2,1)".toList
      = .ok (exactOps.add (exactOps.mul (exactOps.ofUInt64 0) (.fin 2)) (.fin 1)) :=
  (computeValue_zero_width exactOps 0xFF " SG_ X: y (2,1)".toList
    { encoding_type := .BIG_ENDIAN, name := [':'], unit := [], scale_factor := .fin 2,
      offset := .fin 1, start_bit := 0, bit_length := 0, is_signed := false }
    (by decide!)).2.1 (by decide)

end DBC

namespace DBC

/-! ## The loop body as classification and merge -/

theorem tokenClass_bitLayout {w : Str} (h : '@' ∈ w) : tokenClass w = .bitLayout := by
  simp [tokenClass, h]

theorem tokenClass_scaleOffset {w : Str} (h1 : '@' ∉ w) (h2 : '(' ∈ w) :
    tokenClass w = .scaleOffset := by
  simp [tokenClass, h1, h2]

theorem tokenClass_unit {w : Str} (h1 : '@' ∉ w) (h2 : '(' ∉ w) (h3 : '"' ∈ w) :
    tokenClass w = .unit := by
  simp [tokenClass, h1, h2, h3]

theorem tokenClass_unrecognized {w : Str} (h1 : '@' ∉ w) (h2 : '(' ∉ w) (h3 : '"' ∉ w) :
    tokenClass w = .unrecognized := by
  simp [tokenClass, h1, h2, h3]

theorem tokenClass_ne_bitLayout {w : Str} (h : tokenClass w ≠ .bitLayout) : '@' ∉ w := by
  intro hm; exact h (tokenClass_bitLayout hm)

/-- The loop body of `ExtractRulesFromSingleSignal` classifies the word, parses it with
the parser of its class and merges the result. -/
theorem applyWord_eq_merge {F : Type} (ops : FloatOps F) (r : CANSignal F) (w : Str) :
    applyWord ops r w = (classify_and_parse ops w).map (fun d => d.merge r) := by
  unfold applyWord classify_and_parse
  simp only [find_single_isSome, decide_eq_true_eq]
  by_cases h1 : '@' ∈ w
  · rw [if_pos h1, tokenClass_bitLayout h1]
    cases ParseLenghtStartBit w <;> rfl
  · rw [if_neg h1]
    by_cases h2 : '(' ∈ w
    · rw [if_pos h2, tokenClass_scaleOffset h1 h2]
      cases ParseScaleOffset ops w <;> rfl
    · rw [if_neg h2]
      by_cases h3 : '"' ∈ w
      · rw [if_pos h3, tokenClass_unit h1 h2 h3]
        cases ParseUnit w <;> rfl
      · rw [if_neg h3, tokenClass_unrecognized h1 h2 h3]
        rfl

theorem classify_kind {F : Type} (ops : FloatOps F) (w : Str) (d : FieldData F)
    (h : classify_and_parse ops w = .ok d) : d.kind = tokenClass w := by
  unfold classify_and_parse at h
  cases hk : tokenClass w <;> rw [hk] at h <;> simp only [] at h
  · cases hp : ParseLenghtStartBit w <;> rw [hp] at h <;> cases h; rfl
  · cases hp : ParseScaleOffset ops w <;> rw [hp] at h <;> cases h; rfl
  · cases hp : ParseUnit w <;> rw [hp] at h <;> cases h; rfl
  · cases h; rfl

theorem applyWord_ok_iff {F : Type} (ops : FloatOps F) (r r2 : CANSignal F) (w : Str) :
    applyWord ops r w = .ok r2 ↔
      ∃ d, classify_and_parse ops w = .ok d ∧ r2 = d.merge r := by
  rw [applyWord_eq_merge]
  cases classify_and_parse ops w with
  | error e => simp [Except.map]
  | ok d =>
    simp only [Except.map, Except.ok.injEq]
    constructor
    · intro h; exact ⟨d, rfl, h.symm⟩
    · rintro ⟨d2, h1, h2⟩; rw [h2, h1]

/-- Parsed contents of different classes, or of which one is unrecognized, merge in
either order to the same signal. -/
theorem merge_comm {F : Type} (a b : FieldData F) (r : CANSignal F)
    (h : a.kind ≠ b.kind ∨ a.kind = .unrecognized) :
    a.merge (b.merge r) = b.merge (a.merge r) := by
  cases a <;> cases b <;> first
    | rfl
    | (exfalso; simp [FieldData.kind] at h)

end DBC

namespace DBC

/-! ## Lemmas on the fields of a class -/

theorem classFields_merge_same {F : Type} (d : FieldData F) (r : CANSignal F) :
    classFields d.kind (d.merge r) = d := by
  cases d <;> rfl

theorem classFields_merge_other {F : Type} (d : FieldData F) (r : CANSignal F)
    (k : TokenClass) (h : d.kind ≠ k) : classFields k (d.merge r) = classFields k r := by
  cases d <;> cases k <;> first
    | rfl
    | exact absurd rfl h

theorem applyWords_cons_ok {F : Type} (ops : FloatOps F) (r s : CANSignal F) (w : Str)
    (ws : List Str) :
    applyWords ops r (w :: ws) = .ok s ↔
      ∃ r1, applyWord ops r w = .ok r1 ∧ applyWords ops r1 ws = .ok s := by
  rw [applyWords]
  cases applyWord ops r w with
  | error e => simp
  | ok r1 => simp

theorem applyWords_append_iff {F : Type} (ops : FloatOps F) (a b : List Str)
    (r s : CANSignal F) :
    applyWords ops r (a ++ b) = .ok s ↔
      ∃ r1, applyWords ops r a = .ok r1 ∧ applyWords ops r1 b = .ok s := by
  induction a generalizing r with
  | nil => simp [applyWords]
  | cons w a ih =>
    rw [List.cons_append, applyWords_cons_ok]
    constructor
    · rintro ⟨r1, h1, h2⟩
      obtain ⟨r2, h3, h4⟩ := (ih r1).mp h2
      exact ⟨r2, (applyWords_cons_ok ops r r2 w a).mpr ⟨r1, h1, h3⟩, h4⟩
    · rintro ⟨r2, h1, h2⟩
      obtain ⟨r1, h3, h4⟩ := (applyWords_cons_ok ops r r2 w a).mp h1
      exact ⟨r1, h3, (ih r1).mpr ⟨r2, h4, h2⟩⟩

/-- Words of other classes leave the fields of a class alone. -/
theorem applyWords_classFields_keep {F : Type} (ops : FloatOps F) (k : TokenClass)
    (ws : List Str) (r s : CANSignal F) (hws : ∀ w ∈ ws, tokenClass w ≠ k)
    (h : applyWords ops r ws = .ok s) : classFields k s = classFields k r := by
  induction ws generalizing r with
  | nil => cases h; rfl
  | cons w ws ih =>
    obtain ⟨r1, h1, h2⟩ := (applyWords_cons_ok ops r s w ws).mp h
    obtain ⟨d, hd, rfl⟩ := (applyWord_ok_iff ops r r1 w).mp h1
    rw [ih _ (fun v hv => hws v (List.mem_cons_of_mem _ hv)) h2]
    apply classFields_merge_other
    rw [classify_kind ops w d hd]
    exact hws w (List.mem_cons_self _ _)

/-- The fields of a class are those parsed from the last word of that class. -/
theorem applyWords_class_of_last {F : Type} (ops : FloatOps F) (pre post : List Str)
    (tok : Str) (r s : CANSignal F)
    (hpost : ∀ w ∈ post, tokenClass w ≠ tokenClass tok)
    (h : applyWords ops r (pre ++ tok :: post) = .ok s) :
    ∃ d, classify_and_parse ops tok = .ok d ∧ classFields (tokenClass tok) s = d := by
  obtain ⟨r1, _, h2⟩ := (applyWords_append_iff ops pre (tok :: post) r s).mp h
  obtain ⟨r2, h3, h4⟩ := (applyWords_cons_ok ops r1 s tok post).mp h2
  obtain ⟨d, hd, rfl⟩ := (applyWord_ok_iff ops r1 r2 tok).mp h3
  refine ⟨d, hd, ?_⟩
  rw [applyWords_classFields_keep ops _ post _ s hpost h4, ← classify_kind ops tok d hd]
  exact classFields_merge_same d r1

/-- A decoded signal comes from the word loop run on the words of the trimmed line,
started from a default signal. -/
theorem extract_ok_words {F : Type} (ops : FloatOps F) (line : Str) (sig : CANSignal F)
    (hdec : ExtractRulesFromSingleSignal ops line = .ok sig) :
    ∃ name, applyWords ops { CANSignal.init ops with name := name }
      (SplitIntoWords (TrimString line)) = .ok sig := by
  unfold ExtractRulesFromSingleSignal at hdec
  simp only [] at hdec
  split at hdec
  · cases hdec
  · exact ⟨_, hdec⟩

theorem extract_class_of_last {F : Type} (ops : FloatOps F) (line : Str)
    (pre post : List Str) (tok : Str) (sig : CANSignal F)
    (hsplit : SplitIntoWords (TrimString line) = pre ++ tok :: post)
    (hpost : ∀ w ∈ post, tokenClass w ≠ tokenClass tok)
    (hdec : ExtractRulesFromSingleSignal ops line = .ok sig) :
    ∃ d, classify_and_parse ops tok = .ok d ∧ classFields (tokenClass tok) sig = d := by
  obtain ⟨name, h⟩ := extract_ok_words ops line sig hdec
  rw [hsplit] at h
  exact applyWords_class_of_last ops pre post tok _ sig hpost h

/-- Swapping two adjacent words that are not of the same recognized class does not
change a successful result of the word loop. -/
theorem applyWords_swap {F : Type} (ops : FloatOps F) (x y : Str) (l : List Str)
    (r s : CANSignal F)
    (hxy : tokenClass x ≠ tokenClass y ∨ tokenClass x = .unrecognized)
    (h : applyWords ops r (y :: x :: l) = .ok s) :
    applyWords ops r (x :: y :: l) = .ok s := by
  obtain ⟨r1, h1, h2⟩ := (applyWords_cons_ok ops r s y _).mp h
  obtain ⟨r2, h3, h4⟩ := (applyWords_cons_ok ops r1 s x l).mp h2
  obtain ⟨dy, hdy, rfl⟩ := (applyWord_ok_iff ops r r1 y).mp h1
  obtain ⟨dx, hdx, rfl⟩ := (applyWord_ok_iff ops _ r2 x).mp h3
  have hk : dx.kind ≠ dy.kind ∨ dx.kind = .unrecognized := by
    rw [classify_kind ops x dx hdx, classify_kind ops y dy hdy]; exact hxy
  refine (applyWords_cons_ok ops r s x _).mpr ⟨dx.merge r, ?_, ?_⟩
  · exact (applyWord_ok_iff ops r _ x).mpr ⟨dx, hdx, rfl⟩
  · refine (applyWords_cons_ok ops _ s y l).mpr ⟨dy.merge (dx.merge r), ?_, ?_⟩
    · exact (applyWord_ok_iff ops _ _ y).mpr ⟨dy, hdy, rfl⟩
    · rw [← merge_comm dx dy r hk]; exact h4

theorem classCount_cons (k : TokenClass) (w : Str) (ws : List Str) :
    classCount k (w :: ws) = classCount k ws + (if tokenClass w = k then 1 else 0) := by
  simp [classCount, List.countP_cons]

/-- With at most one word of each recognized class, a successful result of the word
loop does not depend on the order of the words. -/
theorem applyWords_perm {F : Type} (ops : FloatOps F) (l1 l2 : List Str)
    (hp : l1.Perm l2)
    (hone : ∀ k, k ≠ TokenClass.unrecognized → classCount k l1 ≤ 1)
    (r s : CANSignal F) (h : applyWords ops r l1 = .ok s) :
    applyWords ops r l2 = .ok s := by
  induction hp generalizing r s with
  | nil => exact h
  | cons x _ ih =>
    obtain ⟨r1, h1, h2⟩ := (applyWords_cons_ok ops r s x _).mp h
    refine (applyWords_cons_ok ops r s x _).mpr ⟨r1, h1, ih ?_ r1 s h2⟩
    intro k hk
    have := hone k hk
    rw [classCount_cons] at this
    omega
  | swap x y l =>
    apply applyWords_swap ops x y l r s _ h
    by_cases hxy : tokenClass x = tokenClass y
    · right
      by_contra hne
      have := hone (tokenClass x) hne
      rw [classCount_cons, classCount_cons] at this
      simp [hxy] at this
    · exact Or.inl hxy
  | trans hp1 _ ih1 ih2 =>
    apply ih2 _ r s (ih1 hone r s h)
    intro k hk
    have := hone k hk
    unfold classCount at this ⊢
    rw [← hp1.countP_eq]
    exact this

end DBC

namespace DBC

/-! ## Claims on the word loop: defaults, order, units, priority, overwriting -/

theorem words_signalLine (name : Str) (ws : List Str) (hsp : ' ' ∉ name)
    (hws : ∀ w ∈ ws, w ≠ [] ∧ ' ' ∉ w ∧ '\t' ∉ w) :
    SplitIntoWords (TrimString (signalLine name ws))
      = ['S', 'G', '_'] :: (name ++ [':']) :: ws := by
  rw [trimString_signalLine name ws hws]
  have e : ['S', 'G', '_', ' '] ++ name ++ ':' :: spaced ws
      = ['S', 'G', '_'] ++ spaced ((name ++ [':']) :: ws) := by
    simp [spaced]
  rw [e]
  apply splitIntoWords_spaced
  · exact ⟨by simp, by decide⟩
  · intro v hv
    rcases List.mem_cons.mp hv with h | h
    · subst h
      exact ⟨by simp, by simp [hsp]⟩
    · exact ⟨(hws v h).1, (hws v h).2.1⟩

theorem extract_signalLine_words {F : Type} (ops : FloatOps F) (name : Str)
    (ws : List Str) (hne : name ≠ []) (hsp : ' ' ∉ name) (hws0 : ws ≠ [])
    (hws : ∀ w ∈ ws, w ≠ [] ∧ ' ' ∉ w ∧ '\t' ∉ w) :
    ExtractRulesFromSingleSignal ops (signalLine name ws)
      = applyWords ops { CANSignal.init ops with name := name.drop 1 ++ [':'] }
          ([['S', 'G', '_'], name ++ [':']] ++ ws) := by
  obtain ⟨w, wt, rfl⟩ := List.exists_cons_of_ne_nil hws0
  have h1 := words_signalLine name (w :: wt) hsp hws
  have h2 := trimString_signalLine name (w :: wt) hws
  unfold ExtractRulesFromSingleSignal
  simp only [h1]
  simp only [h2, parseName_body name w wt hne hsp]
  rfl


end DBC

namespace DBC

theorem classify_bitLayout_inv {F : Type} (ops : FloatOps F) (w : Str) (d : FieldData F)
    (hk : tokenClass w = .bitLayout) (h : classify_and_parse ops w = .ok d) :
    ∃ p, ParseLenghtStartBit w = .ok p ∧ d = .BitLayout p.2.1 p.1 p.2.2.1 p.2.2.2 := by
  unfold classify_and_parse at h
  rw [hk] at h
  simp only [] at h
  cases hp : ParseLenghtStartBit w with
  | error e => rw [hp] at h; cases h
  | ok p => rw [hp] at h; cases h; exact ⟨p, rfl, rfl⟩

theorem classify_scaleOffset_inv {F : Type} (ops : FloatOps F) (w : Str) (d : FieldData F)
    (hk : tokenClass w = .scaleOffset) (h : classify_and_parse ops w = .ok d) :
    ∃ q, ParseScaleOffset ops w = .ok q ∧ d = .ScaleOffset q.1 q.2 := by
  unfold classify_and_parse at h
  rw [hk] at h
  simp only [] at h
  cases hp : ParseScaleOffset ops w with
  | error e => rw [hp] at h; cases h
  | ok q => rw [hp] at h; cases h; exact ⟨q, rfl, rfl⟩

theorem classify_unit_inv {F : Type} (ops : FloatOps F) (w : Str) (d : FieldData F)
    (hk : tokenClass w = .unit) (h : classify_and_parse ops w = .ok d) :
    ∃ u, ParseUnit w = .ok u ∧ d = .Unit u := by
  unfold classify_and_parse at h
  rw [hk] at h
  simp only [] at h
  cases hp : ParseUnit w with
  | error e => rw [hp] at h; cases h
  | ok u => rw [hp] at h; cases h; exact ⟨u, rfl, rfl⟩

theorem applyWords_plain {F : Type} (ops : FloatOps F) (ws : List Str) (r : CANSignal F)
    (hws : ∀ w ∈ ws, '@' ∉ w ∧ '(' ∉ w ∧ '"' ∉ w) : applyWords ops r ws = .ok r := by
  induction ws with
  | nil => rfl
  | cons w ws ih =>
    have hw := hws w (List.mem_cons_self _ _)
    rw [applyWords, applyWord_plain ops r w hw.1 hw.2.1 hw.2.2]
    exact ih (fun v hv => hws v (List.mem_cons_of_mem _ hv))

theorem parseUnit_strip (text : Str) : ParseUnit ('"' :: (text ++ ['"'])) = .ok text := by
  unfold ParseUnit
  rw [if_pos (by simp)]
  simp only [range, List.length_cons, List.length_append, List.length_nil, List.drop_succ_cons,
    List.drop_zero]
  rw [if_pos (by omega)]
  have : text.length + (0 + 1) + 1 - 1 - 1 = text.length := by omega
  rw [this, List.take_left]

/-- C14 (unit parsing).  For a token `'"' ++ text ++ '"'` (the text may be empty)
`ParseUnit` returns exactly the text; and when the text contains none of `' '`, `'@'`,
`'('`, every line that decodes and whose last unit token is this token yields a signal
whose unit is the text (`rpm` for the token `"rpm"`). -/
theorem parseUnit_quoted {F : Type} (ops : FloatOps F) (text : Str) :
    ParseUnit ('"' :: (text ++ ['"'])) = .ok text ∧
    (' ' ∉ text → '@' ∉ text → '(' ∉ text →
      ∀ (line : Str) (pre post : List Str) (sig : CANSignal F),
        SplitIntoWords (TrimString line) = pre ++ ('"' :: (text ++ ['"'])) :: post →
        (∀ w ∈ post, tokenClass w ≠ .unit) →
        ExtractRulesFromSingleSignal ops line = .ok sig →
        sig.unit = text) ∧
    ParseUnit ['"', '"'] = .ok [] ∧
    (ExtractRulesFromSingleSignal exactOps
        " SG_ RPM: 0|16@1+ (0.25,0) \"rpm\"".toList).map (fun sig => sig.unit)
      = .ok ['r', 'p', 'm'] := by
  refine ⟨parseUnit_strip text, ?_, by decide, by decide!⟩
  intro _ hat hpar line pre post sig hsplit hpost hdec
  have hk : tokenClass ('"' :: (text ++ ['"'])) = .unit :=
    tokenClass_unit (by simp [hat]) (by simp [hpar]) (by simp)
  obtain ⟨d, hd, hf⟩ := extract_class_of_last ops line pre post _ sig hsplit
    (by rw [hk]; exact hpost) hdec
  obtain ⟨u, hu, rfl⟩ := classify_unit_inv ops _ d hk hd
  rw [parseUnit_strip] at hu
  cases hu
  rw [hk] at hf
  simp only [classFields, FieldData.Unit.injEq] at hf
  exact hf

/-- Witness for C14: the token `"km/h"` as last word of the line
`" SG_ V: 0|8@1+ \"km/h\""`. -/
theorem parseUnit_quoted_witness :
    ExtractRulesFromSingleSignal exactOps " SG_ V: 0|8@1+ \"km/h\"".toList
      = .ok { encoding_type := .BIG_ENDIAN, name := [':'], unit := "km/h".toList,
              scale_factor := .fin 0, offset := .fin 0, start_bit := 0, bit_length := 8,
              is_signed := false } ∧
    (CANSignal.unit (F := XReal)
      { encoding_type := .BIG_ENDIAN, name := [':'], unit := "km/h".toList,
        scale_factor := .fin 0, offset := .fin 0, start_bit := 0, bit_length := 8,
        is_signed := false }) = "km/h".toList :=
  ⟨by decide!,
   (parseUnit_quoted exactOps "km/h".toList).2.1 (by decide) (by decide) (by decide)
    " SG_ V: 0|8@1+ \"km/h\"".toList [['S', 'G', '_'], ['V', ':'], "0|8@1+".toList] []
    { encoding_type := .BIG_ENDIAN, name := [':'], unit := "km/h".toList,
      scale_factor := .fin 0, offset := .fin 0, start_bit := 0, bit_length := 8,
      is_signed := false }
    (by decide) (by decide) (by decide!)⟩

end DBC

namespace DBC

/-- C18 (classification priority).  In the loop body a word is handed to
`ParseLenghtStartBit` when it contains `'@'`; to `ParseScaleOffset` when it contains
`'('` and no `'@'`; to `ParseUnit` when it contains `'"'` and neither `'@'` nor `'('`;
and is ignored otherwise.  So the quoted token `"(deg)"` is handed to `ParseScaleOffset`
(which fails on it) and not to `ParseUnit` (which would give `(deg)`), and the quoted
token `"1(,2"` sets scale and offset and leaves the unit as it was. -/
theorem applyWord_priority {F : Type} (ops : FloatOps F) (r : CANSignal F) (w : Str) :
    ('@' ∈ w → applyWord ops r w = (ParseLenghtStartBit w).map (fun p =>
        { r with bit_length := p.1, start_bit := p.2.1, is_signed := p.2.2.1,
                 encoding_type := p.2.2.2 })) ∧
    ('@' ∉ w → '(' ∈ w → applyWord ops r w = (ParseScaleOffset ops w).map (fun p =>
        { r with scale_factor := p.1, offset := p.2 })) ∧
    ('@' ∉ w → '(' ∉ w → '"' ∈ w → applyWord ops r w = (ParseUnit w).map (fun u =>
        { r with unit := u })) ∧
    ('@' ∉ w → '(' ∉ w → '"' ∉ w → applyWord ops r w = .ok r) ∧
    applyWord ops r w = (classify_and_parse ops w).map (fun d => d.merge r) ∧
    (tokenClass "\"(deg)\"".toList = .scaleOffset ∧
      applyWord exactOps (CANSignal.init exactOps) "\"(deg)\"".toList
        = (ParseScaleOffset exactOps "\"(deg)\"".toList).map (fun p =>
            { CANSignal.init exactOps with scale_factor := p.1, offset := p.2 }) ∧
      applyWord exactOps (CANSignal.init exactOps) "\"(deg)\"".toList
        = .error .invalid_argument ∧
      ParseUnit "\"(deg)\"".toList = .ok "(deg)".toList) ∧
    applyWord exactOps (CANSignal.init exactOps) "\"1(,2\"".toList
      = .ok { CANSignal.init exactOps with scale_factor := .fin 1, offset := .fin 2 } := by
  refine ⟨?_, ?_, ?_, ?_, applyWord_eq_merge ops r w, by decide!, by decide!⟩
  · intro h1
    unfold applyWord
    simp only [find_single_isSome, decide_eq_true_eq, if_pos h1]
    cases ParseLenghtStartBit w <;> rfl
  · intro h1 h2
    unfold applyWord
    simp only [find_single_isSome, decide_eq_true_eq, if_neg h1, if_pos h2]
    cases ParseScaleOffset ops w <;> rfl
  · intro h1 h2 h3
    unfold applyWord
    simp only [find_single_isSome, decide_eq_true_eq, if_neg h1, if_neg h2, if_pos h3]
    cases ParseUnit w <;> rfl
  · intro h1 h2 h3
    exact applyWord_plain ops r w h1 h2 h3

/-- Witness for C18: the word `(0.25,0)` contains `'('` and no `'@'` and is handed to
`ParseScaleOffset`. -/
theorem applyWord_priority_witness :
    applyWord exactOps (CANSignal.init exactOps) "(0.25,0)".toList
      = (ParseScaleOffset exactOps "(0.25,0)".toList).map (fun p =>
          { CANSignal.init exactOps with scale_factor := p.1, offset := p.2 }) :=
  (applyWord_priority exactOps (CANSignal.init exactOps) "(0.25,0)".toList).2.1
    (by decide) (by decide)

/-- C19 (last token wins).  For every line that decodes: the bit-layout fields are those
parsed from the last word containing `'@'`, scale and offset are those parsed from the
last scale/offset word, and the unit is the one parsed from the last unit word; earlier
words of the same class are overwritten.  For the line
`" SG_ V: 0|8@1+ 3|4@0- (1,2) (3,4) \"km h\""` the signal has start bit 3, length 4, scale
3, offset 4, and its unit is the empty text parsed from the second half `h"` of the
quoted unit, not the `k` parsed from the first half `"km`. -/
theorem extract_last_token_wins {F : Type} (ops : FloatOps F) :
    (∀ (line : Str) (sig : CANSignal F) (pre post : List Str) (tok : Str),
        ExtractRulesFromSingleSignal ops line = .ok sig →
        SplitIntoWords (TrimString line) = pre ++ tok :: post →
        (∀ w ∈ post, tokenClass w ≠ tokenClass tok) →
        (tokenClass tok = .bitLayout → ∃ p, ParseLenghtStartBit tok = .ok p ∧
          sig.bit_length = p.1 ∧ sig.start_bit = p.2.1 ∧ sig.is_signed = p.2.2.1 ∧
          sig.encoding_type = p.2.2.2) ∧
        (tokenClass tok = .scaleOffset → ∃ q, ParseScaleOffset ops tok = .ok q ∧
          sig.scale_factor = q.1 ∧ sig.offset = q.2) ∧
        (tokenClass tok = .unit → ∃ u, ParseUnit tok = .ok u ∧ sig.unit = u)) ∧
    (ExtractRulesFromSingleSignal exactOps
        " SG_ V: 0|8@1+ 3|4@0- (1,2) (3,4) \"km h\"".toList).map
        (fun sig => (sig.start_bit, sig.bit_length, sig.scale_factor, sig.offset, sig.unit))
      = .ok (3, 4, .fin 3, .fin 4, []) ∧
    SplitIntoWords " SG_ V: \"km h\"".toList
      = [['S', 'G', '_'], ['V', ':'], ['"', 'k', 'm'], ['h', '"']] ∧
    ParseUnit ['"', 'k', 'm'] = .ok ['k'] ∧ ParseUnit ['h', '"'] = .ok [] := by
  refine ⟨?_, by decide!, by decide, by decide, by decide⟩
  intro line sig pre post tok hdec hsplit hpost
  obtain ⟨d, hd, hf⟩ := extract_class_of_last ops line pre post tok sig hsplit hpost hdec
  refine ⟨?_, ?_, ?_⟩
  · intro hk
    obtain ⟨p, hp, rfl⟩ := classify_bitLayout_inv ops tok d hk hd
    rw [hk] at hf
    simp only [classFields, FieldData.BitLayout.injEq] at hf
    exact ⟨p, hp, hf.2.1, hf.1, hf.2.2.1, hf.2.2.2⟩
  · intro hk
    obtain ⟨q, hq, rfl⟩ := classify_scaleOffset_inv ops tok d hk hd
    rw [hk] at hf
    simp only [classFields, FieldData.ScaleOffset.injEq] at hf
    exact ⟨q, hq, hf.1, hf.2⟩
  · intro hk
    obtain ⟨u, hu, rfl⟩ := classify_unit_inv ops tok d hk hd
    rw [hk] at hf
    simp only [classFields, FieldData.Unit.injEq] at hf
    exact ⟨u, hu, hf⟩

/-- Witness for C19: the line `" SG_ V: 0|8@1+ 3|4@0-"`, whose second bit-layout token
decides the fields. -/
theorem extract_last_token_wins_witness :
    ∃ p, ParseLenghtStartBit "3|4@0-".toList = .ok p ∧
      (4 : Int) = p.1 ∧ (3 : Int) = p.2.1 ∧ true = p.2.2.1 ∧
      Encoding.LITTLE_ENDIAN = p.2.2.2 :=
  ((extract_last_token_wins exactOps).1 " SG_ V: 0|8@1+ 3|4@0-".toList
    { encoding_type := .LITTLE_ENDIAN, name := [':'], unit := [], scale_factor := .fin 0,
      offset := .fin 0, start_bit := 3, bit_length := 4, is_signed := true }
    [['S', 'G', '_'], ['V', ':'], "0|8@1+".toList] [] "3|4@0-".toList
    (by decide!) (by decide) (by decide)).1 (by decide)

end DBC

namespace DBC

/-! ## Claims on splitting and trimming -/

/-- The loop of `SplitIntoWords` against splitting at every space: the word being built
is glued to the first piece, and empty pieces are dropped. -/
theorem splitLoop_eq_splitOn (text : Str) (words : List Str) (word : Str) :
    splitLoop text words word
      = words ++ ((text.splitOn ' ').modifyHead (fun x => word ++ x)).filter
          (fun w => !w.isEmpty) := by
  have hid : ∀ l : List Str, List.modifyHead (fun x => x) l = l := by
    intro l; cases l <;> rfl
  unfold List.splitOn
  induction text generalizing words word with
  | nil =>
    rw [splitLoop, List.splitOnP_nil]
    cases word <;> simp
  | cons c t ih =>
    rw [splitLoop, List.splitOnP_cons]
    by_cases hc : (c == ' ') = true
    · simp only [hc, if_true]
      cases word with
      | nil =>
        simp only [List.isEmpty_nil, if_true]
        rw [ih]
        simp [hid]
      | cons a word =>
        simp only [List.isEmpty_cons, Bool.false_eq_true, if_false]
        rw [ih]
        simp [hid]
    · simp only [hc, Bool.false_eq_true, if_false]
      rw [ih, List.modifyHead_modifyHead]
      congr 3
      funext x
      simp

theorem splitLoop_nonempty (text : Str) (words : List Str) (word : Str)
    (hw : ∀ w ∈ words, w ≠ []) : ∀ w ∈ splitLoop text words word, w ≠ [] := by
  rw [splitLoop_eq_splitOn]
  intro w hm
  rcases List.mem_append.mp hm with h | h
  · exact hw w h
  · have := (List.mem_filter.mp h).2
    intro e
    subst e
    simp at this

theorem splitLoop_no_space (text : Str) (words : List Str) (word : Str)
    (hw : ∀ w ∈ words, ' ' ∉ w) (hword : ' ' ∉ word) :
    ∀ w ∈ splitLoop text words word, ' ' ∉ w := by
  induction text generalizing words word with
  | nil =>
    rw [splitLoop]
    split
    · exact hw
    · intro w hm
      rcases List.mem_append.mp hm with h | h
      · exact hw w h
      · rw [List.mem_singleton.mp h]; exact hword
  | cons c t ih =>
    rw [splitLoop]
    by_cases hc : (c == ' ') = true
    · simp only [hc, if_true]
      split
      · exact ih words word hw hword
      · apply ih _ _ _ (by simp)
        intro w hm
        rcases List.mem_append.mp hm with h | h
        · exact hw w h
        · rw [List.mem_singleton.mp h]; exact hword
    · simp only [hc, Bool.false_eq_true, if_false]
      apply ih _ _ hw
      intro hm
      rcases List.mem_append.mp hm with h | h
      · exact hword h
      · have : c = ' ' := (List.mem_singleton.mp h).symm
        exact hc (by simp [this])

theorem splitLoop_flatten (text : Str) (words : List Str) (word : Str) :
    (splitLoop text words word).flatten
      = words.flatten ++ word ++ text.filter (fun c => !(c == ' ')) := by
  induction text generalizing words word with
  | nil =>
    rw [splitLoop]
    cases word <;> simp
  | cons c t ih =>
    rw [splitLoop]
    by_cases hc : (c == ' ') = true
    · simp only [hc, if_true]
      cases word with
      | nil => rw [List.isEmpty_nil, if_pos rfl, ih]; simp [hc]
      | cons a word =>
        rw [List.isEmpty_cons, if_neg (by simp), ih]
        simp [hc]
    · simp only [hc, Bool.false_eq_true, if_false]
      rw [ih]
      simp [hc]

/-- C16 (word splitting), counterexample.  The tab is white space but not a delimiter
of `SplitIntoWords`: the text `a<TAB>b` comes back as the single word `a<TAB>b`, which
contains the tab, and the words of `a<TAB>b c` concatenate to `a<TAB>bc`, not to the
text with its white space removed. -/
theorem splitIntoWords_keeps_tab :
    isSpaceC '\t' = true ∧
    SplitIntoWords ['a', '\t', 'b'] = [['a', '\t', 'b']] ∧
    SplitIntoWords ['a', '\t', 'b', ' ', 'c'] = [['a', '\t', 'b'], ['c']] ∧
    ¬ (∀ text : Str, ∀ w ∈ SplitIntoWords text, ∀ c ∈ w, isSpaceC c = false) := by
  refine ⟨by decide, by decide, by decide, ?_⟩
  intro h
  have := h ['a', '\t', 'b'] ['a', '\t', 'b'] (by decide) '\t' (by decide)
  exact absurd this (by decide)

/-- C16 as amended.  With the space character as the only delimiter (a tab is an
ordinary character), `SplitIntoWords` returns, in order, exactly the maximal non-empty
runs of characters between spaces, that is the non-empty pieces of the text split at
every space: no returned word is empty, none contains a space, and the words
concatenate to the text with its spaces removed. -/
theorem splitIntoWords_runs (text : Str) :
    SplitIntoWords text = (text.splitOn ' ').filter (fun w => !w.isEmpty) ∧
    (∀ w ∈ SplitIntoWords text, w ≠ []) ∧
    (∀ w ∈ SplitIntoWords text, ' ' ∉ w) ∧
    (SplitIntoWords text).flatten = text.filter (fun c => !(c == ' ')) := by
  refine ⟨?_, ?_, ?_, ?_⟩
  · unfold SplitIntoWords
    rw [splitLoop_eq_splitOn]
    have : (fun x : Str => ([] : Str) ++ x) = id := by funext x; simp
    rw [this, List.modifyHead_id]
    simp
  · exact splitLoop_nonempty text [] [] (by simp)
  · exact splitLoop_no_space text [] [] (by simp) (by simp)
  · unfold SplitIntoWords
    rw [splitLoop_flatten]
    simp

end DBC

namespace DBC

theorem dropWhile_head_not {p : Char → Bool} {l : Str} {x : Char} {t : Str}
    (h : l.dropWhile p = x :: t) : p x = false := by
  have := List.head?_dropWhile_not p l
  rw [h] at this
  simpa using this

theorem dropWhile_append_single {p : Char → Bool} (l : Str) {m : Char} (hm : p m = false) :
    (l ++ [m]).dropWhile p = l.dropWhile p ++ [m] := by
  induction l with
  | nil => simp [List.dropWhile, hm]
  | cons a l ih =>
    by_cases ha : p a = true
    · simp [List.dropWhile, ha, ih]
    · simp [List.dropWhile, ha]

/-- Every text is blank, or is a non-blank middle part between a blank beginning and a
blank end; `TrimString` returns the middle part. -/
theorem trimString_cases (s : Str) :
    (TrimString s = [] ∧ ∀ c ∈ s, c = ' ' ∨ c = '\t') ∨
    ∃ pre mid post, s = pre ++ mid ++ post ∧
      (∀ c ∈ pre, c = ' ' ∨ c = '\t') ∧ (∀ c ∈ post, c = ' ' ∨ c = '\t') ∧
      mid ≠ [] ∧ (∀ c ∈ mid.head?, c ≠ ' ' ∧ c ≠ '\t') ∧
      (∀ c ∈ mid.getLast?, c ≠ ' ' ∧ c ≠ '\t') ∧ TrimString s = mid := by
  have hb : ∀ c : Char, List.contains [' ', '\t'] c = true ↔ (c = ' ' ∨ c = '\t') := by
    intro c; simp
  have hnb : ∀ c : Char, List.contains [' ', '\t'] c = false → (c ≠ ' ' ∧ c ≠ '\t') := by
    intro c h
    constructor <;> (intro e; subst e; simp at h)
  cases hrest : s.dropWhile (fun c => List.contains [' ', '\t'] c) with
  | nil =>
    left
    have hall : ∀ c ∈ s, List.contains [' ', '\t'] c = true :=
      List.dropWhile_eq_nil_iff.mp hrest
    refine ⟨?_, fun c hc => (hb c).mp (hall c hc)⟩
    unfold TrimString find_first_not_of
    rw [findIfAux_none (by
      intro c hc
      rcases (hb c).mp (hall c hc) with h | h <;> simp [h])]
  | cons m mt =>
    right
    have hm : List.contains [' ', '\t'] m = false := dropWhile_head_not hrest
    have hsplit := List.takeWhile_append_dropWhile (fun c => List.contains [' ', '\t'] c) s
    rw [hrest] at hsplit
    have hrev : ((m :: mt).reverse.dropWhile (fun c => List.contains [' ', '\t'] c))
        = (mt.reverse.dropWhile (fun c => List.contains [' ', '\t'] c)) ++ [m] := by
      rw [List.reverse_cons]
      exact dropWhile_append_single _ hm
    have hsplit2 := List.takeWhile_append_dropWhile
      (fun c => List.contains [' ', '\t'] c) (m :: mt).reverse
    have hmid : m :: mt
        = ((m :: mt).reverse.dropWhile (fun c => List.contains [' ', '\t'] c)).reverse
          ++ ((m :: mt).reverse.takeWhile (fun c => List.contains [' ', '\t'] c)).reverse := by
      rw [← List.reverse_append, hsplit2, List.reverse_reverse]
    have hpre : ∀ c ∈ s.takeWhile (fun c => List.contains [' ', '\t'] c),
        c = ' ' ∨ c = '\t' :=
      fun c hc => (hb c).mp (List.mem_takeWhile_imp hc)
    have hpost : ∀ c ∈ ((m :: mt).reverse.takeWhile
        (fun c => List.contains [' ', '\t'] c)).reverse, c = ' ' ∨ c = '\t' :=
      fun c hc => (hb c).mp (List.mem_takeWhile_imp (List.mem_reverse.mp hc))
    have hne : ((m :: mt).reverse.dropWhile
        (fun c => List.contains [' ', '\t'] c)).reverse ≠ [] := by
      rw [hrev]; simp
    have hfirst : ∀ c ∈ (((m :: mt).reverse.dropWhile
        (fun c => List.contains [' ', '\t'] c)).reverse).head?, c ≠ ' ' ∧ c ≠ '\t' := by
      intro c hc
      rw [hrev] at hc
      simp at hc
      subst hc
      exact hnb _ hm
    have hlast : ∀ c ∈ (((m :: mt).reverse.dropWhile
        (fun c => List.contains [' ', '\t'] c)).reverse).getLast?, c ≠ ' ' ∧ c ≠ '\t' := by
      intro c hc
      rw [List.getLast?_reverse] at hc
      cases hd : (m :: mt).reverse.dropWhile (fun c => List.contains [' ', '\t'] c) with
      | nil => rw [hd] at hc; simp at hc
      | cons x xs =>
        rw [hd] at hc
        simp at hc
        subst hc
        exact hnb _ (dropWhile_head_not hd)
    have hs : s = s.takeWhile (fun c => List.contains [' ', '\t'] c)
        ++ ((m :: mt).reverse.dropWhile (fun c => List.contains [' ', '\t'] c)).reverse
        ++ ((m :: mt).reverse.takeWhile (fun c => List.contains [' ', '\t'] c)).reverse := by
      rw [List.append_assoc, ← hmid, hsplit]
    refine ⟨_, _, _, hs, hpre, hpost, hne, hfirst, hlast, ?_⟩
    conv_lhs => rw [hs]
    exact trimString_parts _ _ _ hpre hpost hne hfirst hlast

/-- C15 (trimming).  For every text `s`, `s = pre ++ TrimString s ++ post` with `pre` and
`post` made of spaces and tabs only; `TrimString s` is empty exactly when `s` has no
character other than space and tab, and otherwise begins and ends with a character that
is neither a space nor a tab; and `TrimString` is idempotent. -/
theorem trimString_spec (s : Str) :
    (∃ pre post, s = pre ++ TrimString s ++ post ∧
      (∀ c ∈ pre, c = ' ' ∨ c = '\t') ∧ (∀ c ∈ post, c = ' ' ∨ c = '\t')) ∧
    (TrimString s = [] ↔ ∀ c ∈ s, c = ' ' ∨ c = '\t') ∧
    (∀ c ∈ (TrimString s).head?, c ≠ ' ' ∧ c ≠ '\t') ∧
    (∀ c ∈ (TrimString s).getLast?, c ≠ ' ' ∧ c ≠ '\t') ∧
    TrimString (TrimString s) = TrimString s := by
  rcases trimString_cases s with ⟨h0, hall⟩ | ⟨pre, mid, post, hs, hpre, hpost, hne, hf, hl, ht⟩
  · refine ⟨⟨s, [], by simp [h0], hall, by simp⟩, ⟨fun _ => hall, fun _ => h0⟩, ?_, ?_, ?_⟩
    · rw [h0]; simp
    · rw [h0]; simp
    · rw [h0]; rfl
  · refine ⟨⟨pre, post, by rw [ht]; exact hs, hpre, hpost⟩, ⟨?_, ?_⟩, ?_, ?_, ?_⟩
    · intro h0
      rw [ht] at h0
      exact absurd h0 hne
    · intro hall
      exfalso
      obtain ⟨m, mt, rfl⟩ := List.exists_cons_of_ne_nil hne
      have hm := hf m (by simp)
      have : m ∈ s := by rw [hs]; simp
      rcases hall m this with h | h
      · exact hm.1 h
      · exact hm.2 h
    · rw [ht]; exact hf
    · rw [ht]; exact hl
    · rw [ht]
      have := trimString_parts [] mid [] (by simp) (by simp) hne hf hl
      simpa using this

end DBC

namespace DBC

/-! ## Bit-layout tokens on a line -/

/-- C2 (bit-layout parsing).  For a token `<s>|<l>@<e><sign>` with non-empty digit
strings `s`, `l` that fit an `int`, a digit `e` and a sign `'+'` or `'-'`:
`ParseLenghtStartBit` succeeds with length `l`, start bit `s` and `is_signed` true
exactly when the token contains `'-'`; the loop body of `ExtractRulesFromSingleSignal`
stores them, unswapped, in `bit_length`, `start_bit` and `is_signed` of whatever signal
is under construction; a signal line that carries the token among unrecognized words
decodes to the signal with `start_bit = s`, `bit_length = l`, that `is_signed` and the
other fields at their defaults; and every line that decodes and whose last word
containing `'@'` is this token yields `start_bit = s`, `bit_length = l` and that
`is_signed`. -/
theorem parseLenghtStartBit_layout {F : Type} (ops : FloatOps F) (s l : Str) (e sg : Char)
    (hs : s ≠ []) (hsd : ∀ c ∈ s, isDigitC c = true) (hsfit : digitsVal 10 s ≤ 2147483647)
    (hl : l ≠ []) (hld : ∀ c ∈ l, isDigitC c = true) (hlfit : digitsVal 10 l ≤ 2147483647)
    (he : isDigitC e = true) (hsg : sg = '+' ∨ sg = '-') :
    (∃ enc, ParseLenghtStartBit (s ++ '|' :: (l ++ ['@', e, sg]))
        = .ok ((digitsVal 10 l : Int), (digitsVal 10 s : Int),
            decide ('-' ∈ s ++ '|' :: (l ++ ['@', e, sg])), enc)) ∧
    (∃ enc, ∀ r : CANSignal F, applyWord ops r (s ++ '|' :: (l ++ ['@', e, sg]))
        = .ok { r with bit_length := (digitsVal 10 l : Int),
                       start_bit := (digitsVal 10 s : Int),
                       is_signed := decide ('-' ∈ s ++ '|' :: (l ++ ['@', e, sg])),
                       encoding_type := enc }) ∧
    (∀ (name : Str) (pre post : List Str), name ≠ [] → ' ' ∉ name →
        '@' ∉ name → '(' ∉ name → '"' ∉ name →
        (∀ w ∈ pre ++ post, w ≠ [] ∧ ' ' ∉ w ∧ '\t' ∉ w ∧ '@' ∉ w ∧ '(' ∉ w ∧ '"' ∉ w) →
        ∃ nm enc, ExtractRulesFromSingleSignal ops
            (signalLine name (pre ++ (s ++ '|' :: (l ++ ['@', e, sg])) :: post))
          = .ok { encoding_type := enc, name := nm, unit := [],
                  scale_factor := ops.zero, offset := ops.zero,
                  start_bit := (digitsVal 10 s : Int),
                  bit_length := (digitsVal 10 l : Int),
                  is_signed := decide ('-' ∈ s ++ '|' :: (l ++ ['@', e, sg])) }) ∧
    (∀ (line : Str) (pre post : List Str) (sig : CANSignal F),
        SplitIntoWords (TrimString line) = pre ++ (s ++ '|' :: (l ++ ['@', e, sg])) :: post →
        (∀ w ∈ post, '@' ∉ w) →
        ExtractRulesFromSingleSignal ops line = .ok sig →
        sig.start_bit = (digitsVal 10 s : Int) ∧ sig.bit_length = (digitsVal 10 l : Int) ∧
        (sig.is_signed = true ↔ '-' ∈ s ++ '|' :: (l ++ ['@', e, sg]))) := by
  have h := parseLenghtStartBit_shape s l [e, sg] hs hsd hsfit hl hld hlfit
  have hword : ∀ r : CANSignal F, applyWord ops r (s ++ '|' :: (l ++ ['@', e, sg]))
      = .ok { r with bit_length := (digitsVal 10 l : Int),
                     start_bit := (digitsVal 10 s : Int),
                     is_signed := decide ('-' ∈ s ++ '|' :: (l ++ ['@', e, sg])),
                     encoding_type :=
                       if find (s ++ '|' :: (l ++ ['@', e, sg])) ['@', '0'] 0 = none
                       then Encoding.BIG_ENDIAN else Encoding.LITTLE_ENDIAN } := by
    intro r
    simp [applyWord, find_single_isSome, h]
  refine ⟨⟨_, h⟩, ⟨_, hword⟩, ?_, ?_⟩
  · intro name pre post hne hsp hat hpar hq hplain
    have htok : s ++ '|' :: (l ++ ['@', e, sg]) ≠ [] ∧ ' ' ∉ s ++ '|' :: (l ++ ['@', e, sg]) ∧
        '\t' ∉ s ++ '|' :: (l ++ ['@', e, sg]) := by
      have hsp1 : ' ' ∉ s := not_mem_of_all_digits hsd (by decide)
      have hsp2 : ' ' ∉ l := not_mem_of_all_digits hld (by decide)
      have htb1 : '\t' ∉ s := not_mem_of_all_digits hsd (by decide)
      have htb2 : '\t' ∉ l := not_mem_of_all_digits hld (by decide)
      have he1 : ' ' ≠ e := by intro x; subst x; revert he; decide
      have he2 : '\t' ≠ e := by intro x; subst x; revert he; decide
      have hg1 : ' ' ≠ sg := by rcases hsg with x | x <;> (subst x; decide)
      have hg2 : '\t' ≠ sg := by rcases hsg with x | x <;> (subst x; decide)
      refine ⟨by simp, ?_, ?_⟩
      · simp [hsp1, hsp2, he1, hg1]
      · simp [htb1, htb2, he2, hg2]
    have hws : ∀ w ∈ pre ++ (s ++ '|' :: (l ++ ['@', e, sg])) :: post,
        w ≠ [] ∧ ' ' ∉ w ∧ '\t' ∉ w := by
      intro w hw
      rcases List.mem_append.mp hw with hm | hm
      · have := hplain w (List.mem_append.mpr (Or.inl hm))
        exact ⟨this.1, this.2.1, this.2.2.1⟩
      · rcases List.mem_cons.mp hm with hm | hm
        · rw [hm]; exact htok
        · have := hplain w (List.mem_append.mpr (Or.inr hm))
          exact ⟨this.1, this.2.1, this.2.2.1⟩
    have hpre : ∀ w ∈ pre, '@' ∉ w ∧ '(' ∉ w ∧ '"' ∉ w := fun w hw =>
      (hplain w (List.mem_append.mpr (Or.inl hw))).2.2.2
    have hpost : ∀ w ∈ post, '@' ∉ w ∧ '(' ∉ w ∧ '"' ∉ w := fun w hw =>
      (hplain w (List.mem_append.mpr (Or.inr hw))).2.2.2
    rw [extract_signalLine ops name _ hne hsp hat hpar hq (by simp) hws]
    refine ⟨name.drop 1 ++ [':'],
      if find (s ++ '|' :: (l ++ ['@', e, sg])) ['@', '0'] 0 = none
      then Encoding.BIG_ENDIAN else Encoding.LITTLE_ENDIAN, ?_⟩
    apply (applyWords_append_iff ops pre _ _ _).mpr
    refine ⟨_, applyWords_plain ops pre _ hpre, ?_⟩
    apply (applyWords_cons_ok ops _ _ _ post).mpr
    exact ⟨_, hword _, applyWords_plain ops post _ hpost⟩
  · intro line pre post sig hsplit hpost hdec
    have h2 := extract_layout_of_last ops line pre post _ sig _ (by simp) h hsplit hpost hdec
    refine ⟨h2.2.1, h2.1, ?_⟩
    rw [h2.2.2.1]
    simp

/-- Witness for C2: the token `0|16@1+`, alone on the line `" SG_ RPM: 0|16@1+"` and
inside the line `" SG_ RPM: 0|16@1+ (0.25,0) \"rpm\""`, which decodes. -/
theorem parseLenghtStartBit_layout_witness :
    (∃ nm enc, ExtractRulesFromSingleSignal exactOps
        (signalLine ['R', 'P', 'M'] [['0', '|', '1', '6', '@', '1', '+']])
      = .ok { encoding_type := enc, name := nm, unit := [],
              scale_factor := exactOps.zero, offset := exactOps.zero,
              start_bit := (digitsVal 10 ['0'] : Int),
              bit_length := (digitsVal 10 ['1', '6'] : Int),
              is_signed := decide ('-' ∈ ['0', '|', '1', '6', '@', '1', '+']) }) ∧
    ExtractRulesFromSingleSignal exactOps " SG_ RPM: 0|16@1+ (0.25,0) \"rpm\"".toList
      = .ok { encoding_type := .BIG_ENDIAN, name := ['P', 'M', ':'], unit := "rpm".toList,
              scale_factor := .fin (1 / 4), offset := .fin 0, start_bit := 0,
              bit_length := 16, is_signed := false } ∧
    (0 : Int) = (digitsVal 10 ['0'] : Int) ∧ (16 : Int) = (digitsVal 10 ['1', '6'] : Int) := by
  have h := parseLenghtStartBit_layout exactOps ['0'] ['1', '6'] '1' '+'
    (by decide) (by decide) (by decide) (by decide) (by decide) (by decide) (by decide)
    (by decide)
  have h2 := h.2.2.2 " SG_ RPM: 0|16@1+ (0.25,0) \"rpm\"".toList
    [['S', 'G', '_'], ['R', 'P', 'M', ':']]
    [['(', '0', '.', '2', '5', ',', '0', ')'], ['"', 'r', 'p', 'm', '"']]
    { encoding_type := .BIG_ENDIAN, name := ['P', 'M', ':'], unit := "rpm".toList,
      scale_factor := .fin (1 / 4), offset := .fin 0, start_bit := 0,
      bit_length := 16, is_signed := false }
    (by decide) (by decide) (by decide!)
  exact ⟨h.2.2.1 ['R', 'P', 'M'] [] [] (by decide) (by decide) (by decide) (by decide)
    (by decide) (by decide), by decide!, h2.1, h2.2.1⟩

end DBC

namespace DBC

/-! ## Scale and offset in floating point -/

end DBC

namespace DBC

/-! ## Token order: lines whose tokens may hold tabs -/

theorem getLast_spaced_end (ws : List Str)
    (hws : ∀ w ∈ ws, w ≠ [] ∧ ' ' ∉ w ∧ w.getLast? ≠ some '\t')
    (X : Str) (c : Char) (hc : (X ++ spaced ws).getLast? = some c) :
    X.getLast? = some c ∨ (c ≠ ' ' ∧ c ≠ '\t') := by
  induction ws generalizing X with
  | nil => left; simpa [spaced] using hc
  | cons w ws ih =>
    have hw := hws w (List.mem_cons_self _ _)
    have e : X ++ spaced (w :: ws) = (X ++ ' ' :: w) ++ spaced ws := by simp [spaced]
    rw [e] at hc
    rcases ih (fun v hv => hws v (List.mem_cons_of_mem _ hv)) _ hc with h | h
    · right
      have e2 : X ++ ' ' :: w = (X ++ [' ']) ++ w := by simp
      rw [e2, List.getLast?_append_of_ne_nil _ hw.1] at h
      have hm := List.mem_of_getLast?_eq_some h
      exact ⟨fun e => hw.2.1 (e ▸ hm), fun e => hw.2.2 (e ▸ h)⟩
    · exact Or.inr h

theorem trimString_signalLine_end (name : Str) (ws : List Str)
    (hws : ∀ w ∈ ws, w ≠ [] ∧ ' ' ∉ w ∧ w.getLast? ≠ some '\t') :
    TrimString (signalLine name ws) = ['S', 'G', '_', ' '] ++ name ++ ':' :: spaced ws := by
  have e : signalLine name ws
      = [' '] ++ (['S', 'G', '_', ' '] ++ name ++ ':' :: spaced ws) ++ [] := by
    simp [signalLine]
  rw [e]
  apply trimString_parts
  · simp
  · simp
  · simp
  · simp
  · intro c hc
    have e2 : ['S', 'G', '_', ' '] ++ name ++ ':' :: spaced ws
        = (['S', 'G', '_', ' '] ++ name ++ [':']) ++ spaced ws := by simp
    rw [e2] at hc
    rcases getLast_spaced_end _ hws _ c hc with h | h
    · rw [List.getLast?_concat] at h
      cases h
      exact ⟨by decide, by decide⟩
    · exact h

theorem words_signalLine_end (name : Str) (ws : List Str) (hsp : ' ' ∉ name)
    (hws : ∀ w ∈ ws, w ≠ [] ∧ ' ' ∉ w ∧ w.getLast? ≠ some '\t') :
    SplitIntoWords (TrimString (signalLine name ws))
      = ['S', 'G', '_'] :: (name ++ [':']) :: ws := by
  rw [trimString_signalLine_end name ws hws]
  have e : ['S', 'G', '_', ' '] ++ name ++ ':' :: spaced ws
      = ['S', 'G', '_'] ++ spaced ((name ++ [':']) :: ws) := by
    simp [spaced]
  rw [e]
  apply splitIntoWords_spaced
  · exact ⟨by simp, by decide⟩
  · intro v hv
    rcases List.mem_cons.mp hv with h | h
    · subst h
      exact ⟨by simp, by simp [hsp]⟩
    · exact ⟨(hws v h).1, (hws v h).2.1⟩

theorem extract_signalLine_words_end {F : Type} (ops : FloatOps F) (name : Str)
    (ws : List Str) (hne : name ≠ []) (hsp : ' ' ∉ name) (hws0 : ws ≠ [])
    (hws : ∀ w ∈ ws, w ≠ [] ∧ ' ' ∉ w ∧ w.getLast? ≠ some '\t') :
    ExtractRulesFromSingleSignal ops (signalLine name ws)
      = applyWords ops { CANSignal.init ops with name := name.drop 1 ++ [':'] }
          ([['S', 'G', '_'], name ++ [':']] ++ ws) := by
  obtain ⟨w, wt, rfl⟩ := List.exists_cons_of_ne_nil hws0
  have h1 := words_signalLine_end name (w :: wt) hsp hws
  have h2 := trimString_signalLine_end name (w :: wt) hws
  unfold ExtractRulesFromSingleSignal
  simp only [h1]
  simp only [h2, parseName_body name w wt hne hsp]
  rfl

/-- C13 (token order independence), counterexample.  The tokens `x` and `"rpm"<TAB>`
(a unit token that ends in a tab) hold at most one token of each class, and the two
orders are permutations of each other; yet the line with the unit token last decodes
the unit `rpm`, because `TrimString` removes the tab that ends the line before the line
is split, and the line with the unit token first decodes the unit `rpm"`, because there
the tab stays inside the token. -/
theorem extract_order_tab :
    List.Perm [['x'], ['"', 'r', 'p', 'm', '"', '\t']] [['"', 'r', 'p', 'm', '"', '\t'], ['x']] ∧
    (classCount .bitLayout [['x'], ['"', 'r', 'p', 'm', '"', '\t']] ≤ 1 ∧
      classCount .scaleOffset [['x'], ['"', 'r', 'p', 'm', '"', '\t']] ≤ 1 ∧
      classCount .unit [['x'], ['"', 'r', 'p', 'm', '"', '\t']] ≤ 1) ∧
    signalLine ['N'] [['x'], ['"', 'r', 'p', 'm', '"', '\t']] = " SG_ N: x \"rpm\"\t".toList ∧
    signalLine ['N'] [['"', 'r', 'p', 'm', '"', '\t'], ['x']] = " SG_ N: \"rpm\"\t x".toList ∧
    ExtractRulesFromSingleSignal exactOps " SG_ N: x \"rpm\"\t".toList
      = .ok { encoding_type := .BIG_ENDIAN, name := [':'], unit := ['r', 'p', 'm'],
              scale_factor := .fin 0, offset := .fin 0, start_bit := 0,
              bit_length := 0, is_signed := false } ∧
    ExtractRulesFromSingleSignal exactOps " SG_ N: \"rpm\"\t x".toList
      = .ok { encoding_type := .BIG_ENDIAN, name := [':'], unit := ['r', 'p', 'm', '"'],
              scale_factor := .fin 0, offset := .fin 0, start_bit := 0,
              bit_length := 0, is_signed := false } ∧
    ExtractRulesFromSingleSignal exactOps
        (signalLine ['N'] [['x'], ['"', 'r', 'p', 'm', '"', '\t']])
      ≠ ExtractRulesFromSingleSignal exactOps
        (signalLine ['N'] [['"', 'r', 'p', 'm', '"', '\t'], ['x']]) := by
  refine ⟨List.Perm.swap _ _ _, by decide, by decide, by decide, by decide!, by decide!,
    by decide!⟩

/-- C13 as amended.  For a signal line `" SG_ " name ":"` followed by space-separated
tokens none of which ends in a tab, holding at most one token of each class (bit-layout,
scale/offset, unit) besides unrecognized ones, and for every permutation of those tokens:
the permuted line decodes to a signal exactly when the original line does, and to the
same signal. -/
theorem extract_order_independent {F : Type} (ops : FloatOps F) (name : Str)
    (ws ws2 : List Str) (hne : name ≠ []) (hsp : ' ' ∉ name)
    (hws : ∀ w ∈ ws, w ≠ [] ∧ ' ' ∉ w ∧ w.getLast? ≠ some '\t')
    (hperm : ws.Perm ws2)
    (hcount : classCount .bitLayout ws ≤ 1 ∧ classCount .scaleOffset ws ≤ 1 ∧
      classCount .unit ws ≤ 1)
    (sig : CANSignal F) :
    ExtractRulesFromSingleSignal ops (signalLine name ws) = .ok sig ↔
      ExtractRulesFromSingleSignal ops (signalLine name ws2) = .ok sig := by
  by_cases hws0 : ws = []
  · subst hws0
    rw [hperm.symm.eq_nil]
  have hws2 : ∀ w ∈ ws2, w ≠ [] ∧ ' ' ∉ w ∧ w.getLast? ≠ some '\t' :=
    fun w hw => hws w (hperm.mem_iff.mpr hw)
  have hws20 : ws2 ≠ [] := by
    intro e
    rw [e] at hperm
    exact hws0 hperm.eq_nil
  have hone : ∀ k, k ≠ TokenClass.unrecognized → classCount k ws ≤ 1 := by
    intro k hk
    cases k
    · exact hcount.1
    · exact hcount.2.1
    · exact hcount.2.2
    · exact absurd rfl hk
  have hone2 : ∀ k, k ≠ TokenClass.unrecognized → classCount k ws2 ≤ 1 := by
    intro k hk
    have := hone k hk
    unfold classCount at this ⊢
    rw [← hperm.countP_eq]
    exact this
  rw [extract_signalLine_words_end ops name ws hne hsp hws0 hws,
    extract_signalLine_words_end ops name ws2 hne hsp hws20 hws2,
    applyWords_append_iff, applyWords_append_iff]
  constructor
  · rintro ⟨r1, h1, h2⟩
    exact ⟨r1, h1, applyWords_perm ops ws ws2 hperm hone r1 sig h2⟩
  · rintro ⟨r1, h1, h2⟩
    exact ⟨r1, h1, applyWords_perm ops ws2 ws hperm.symm hone2 r1 sig h2⟩

/-- Witness for C13 as amended: the tokens `0|16@1+ (0.25,0) "rpm"` of the signal `RPM`,
with the unit moved to the front; both lines decode, to the same signal. -/
theorem extract_order_independent_witness :
    (ExtractRulesFromSingleSignal exactOps
        (signalLine ['R', 'P', 'M']
          ["0|16@1+".toList, "(0.25,0)".toList, "\"rpm\"".toList])
        = .ok { encoding_type := .BIG_ENDIAN, name := ['P', 'M', ':'], unit := "rpm".toList,
                scale_factor := .fin (1 / 4), offset := .fin 0, start_bit := 0,
                bit_length := 16, is_signed := false } ↔
      ExtractRulesFromSingleSignal exactOps
        (signalLine ['R', 'P', 'M']
          ["\"rpm\"".toList, "0|16@1+".toList, "(0.25,0)".toList])
        = .ok { encoding_type := .BIG_ENDIAN, name := ['P', 'M', ':'], unit := "rpm".toList,
                scale_factor := .fin (1 / 4), offset := .fin 0, start_bit := 0,
                bit_length := 16, is_signed := false }) ∧
    ExtractRulesFromSingleSignal exactOps
        (signalLine ['R', 'P', 'M']
          ["\"rpm\"".toList, "0|16@1+".toList, "(0.25,0)".toList])
        = .ok { encoding_type := .BIG_ENDIAN, name := ['P', 'M', ':'], unit := "rpm".toList,
                scale_factor := .fin (1 / 4), offset := .fin 0, start_bit := 0,
                bit_length := 16, is_signed := false } :=
  ⟨extract_order_independent exactOps ['R', 'P', 'M']
    ["0|16@1+".toList, "(0.25,0)".toList, "\"rpm\"".toList]
    ["\"rpm\"".toList, "0|16@1+".toList, "(0.25,0)".toList]
    (by decide) (by decide) (by decide) (by decide) (by decide) _, by decide!⟩

end DBC
